import Mathlib

/-!
# NUTRIJOSEPH shopping cart (`script.js`): the cart state manager

A shallow embedding of class `ShoppingCart` of `script.js` (lines 9-238): the item list, its
mutations (`addItem`, `removeItem`, the checkout handler), the aggregate queries
(`getTotalItems`, `getTotalPrice`) and persistence (`loadCart`, `saveCart`).

The host facilities the class calls are modelled after ECMAScript and the Web Storage API:

* JS numbers are IEEE-754 binary64 values (`F64`), with round-to-nearest, ties-to-even
  arithmetic carried out exactly on integers;
* `parseFloat`, `JSON.stringify`, `JSON.parse` work on character sequences;
* `localStorage` is a key/value list whose `setItem` may throw.

DOM work (`updateCartCount`, `showNotification`, `animateCartButton`, `renderCartItems`)
never touches `this.items` and is left out.
-/

set_option autoImplicit false
set_option exponentiation.threshold 5000

/-! ## JS numbers -/

/-- A JS number: an IEEE-754 binary64 value. A finite value is `± mag * 2^-1074`, so that
`mag` counts units of the smallest subnormal; every finite double has this form. -/
inductive F64 where
  | nan
  | inf (neg : Bool)
  | fin (neg : Bool) (mag : Nat)
  deriving DecidableEq, Repr

/-- Bit length with explicit fuel. -/
def bitLenAux : Nat → Nat → Nat
  | 0, _ => 0
  | fuel + 1, n => if n = 0 then 0 else bitLenAux fuel (n / 2) + 1

/-- Number of binary digits of `n` (`0` for `0`). -/
def bitLen (n : Nat) : Nat := bitLenAux n n

/-- Nearest integer to `p / d`, ties to even. -/
def rne (p d : Nat) : Nat :=
  let f := p / d
  let r := p % d
  if 2 * r < d then f else if d < 2 * r then f + 1 else if f % 2 = 0 then f else f + 1

/-- Round the non-negative rational `p / q` (in units of `2^-1074`) to the nearest value with at
most 53 significant bits, ties to even. The exponent is unbounded above here; `F64.ofMag`
handles overflow. -/
def roundRat (p q : Nat) : Nat :=
  let shift := bitLen (p / q) - 53
  rne p (q * 2 ^ shift) * 2 ^ shift

/-- The magnitude `2^1024`, in units of `2^-1074`: the first value beyond the finite range. -/
def F64.overflowMag : Nat := 2 ^ 2098

/-- The magnitude `1`, in units of `2^-1074`. -/
def F64.unit : Nat := 2 ^ 1074

/-- A rounded magnitude as a number: values that round to `2^1024` or more become infinite. -/
def F64.ofMag (neg : Bool) (m : Nat) : F64 :=
  if m < F64.overflowMag then .fin neg m else .inf neg

/-- The number `+0`. -/
def F64.zero : F64 := .fin false 0

/-- Conversion of a natural number to a JS number (nearest double). -/
def F64.ofNat (n : Nat) : F64 := F64.ofMag false (roundRat (n * F64.unit) 1)

/-- JS `*` on numbers. -/
def F64.mul : F64 → F64 → F64
  | .nan, _ => .nan
  | _, .nan => .nan
  | .inf a, .inf b => .inf (a != b)
  | .inf a, .fin b m => if m = 0 then .nan else .inf (a != b)
  | .fin a m, .inf b => if m = 0 then .nan else .inf (a != b)
  | .fin a m, .fin b k => F64.ofMag (a != b) (roundRat (m * k) F64.unit)

/-- JS `+` on numbers. -/
def F64.add : F64 → F64 → F64
  | .nan, _ => .nan
  | _, .nan => .nan
  | .inf a, .inf b => if a = b then .inf a else .nan
  | .inf a, .fin _ _ => .inf a
  | .fin _ _, .inf b => .inf b
  | .fin a m, .fin b k =>
    if a = b then F64.ofMag a (roundRat (m + k) 1)
    else if m = k then .fin false 0
    else if k < m then F64.ofMag a (roundRat (m - k) 1)
    else F64.ofMag b (roundRat (k - m) 1)

/-- Whether a number is a double: a finite one has at most 53 significant bits (rounding
leaves it alone) and lies in the finite range. Every number the operations here return is. -/
def F64.IsDouble : F64 → Bool
  | .fin _ m => decide (roundRat m 1 = m) && decide (m < F64.overflowMag)
  | _ => true

/-- Whether `JSON.stringify` writes the number as a numeral that reads back as the same
number: it is finite (`NaN` and the infinities are written `null`) and not negative zero
(written `0`). -/
def F64.jsonExact : F64 → Bool
  | .fin neg m => !(neg && m == 0)
  | _ => false

/-- The exact value of a finite number, in units of `2^-1074`. -/
def F64.units : F64 → Option Int
  | .fin false m => some (m : Int)
  | .fin true m => some (-(m : Int))
  | _ => none

/-- The correctly rounded double nearest to `± s * 10^e`. -/
def decToF64 (neg : Bool) (s : Nat) (e : Int) : F64 :=
  F64.ofMag neg (roundRat (s * 10 ^ e.toNat * F64.unit) (10 ^ (-e).toNat))

/-! ## `parseFloat` -/

/-- Value of a decimal digit character. -/
def digitVal (c : Char) : Nat := c.toNat - 48

/-- Whether `c` is one of `0` .. `9`. -/
def isDecDigit (c : Char) : Bool := 48 ≤ c.toNat && c.toNat ≤ 57

/-- Value of a sequence of decimal digits, most significant first. -/
def natOfDigits (ds : List Char) : Nat := ds.foldl (fun acc c => acc * 10 + digitVal c) 0

/-- Split off the longest run of decimal digits. -/
def spanDigits : List Char → List Char × List Char
  | [] => ([], [])
  | c :: cs =>
    if isDecDigit c then ((spanDigits cs).1.cons c, (spanDigits cs).2) else ([], c :: cs)

/-- ECMAScript `WhiteSpace` and `LineTerminator` code points, as trimmed by `parseFloat`. -/
def isStrWhiteSpace (c : Char) : Bool :=
  let n := c.toNat
  n = 0x9 || n = 0xA || n = 0xB || n = 0xC || n = 0xD || n = 0x20 || n = 0xA0 || n = 0x1680 ||
  (0x2000 ≤ n && n ≤ 0x200A) || n = 0x2028 || n = 0x2029 || n = 0x202F || n = 0x205F ||
  n = 0x3000 || n = 0xFEFF

/-- Drop leading white space. -/
def trimStart : List Char → List Char
  | [] => []
  | c :: cs => if isStrWhiteSpace c then trimStart cs else c :: cs

/-- An `ExponentPart` at the head of the input, if there is a complete one: `e` or `E`, an
optional sign and at least one digit. Without one the exponent is `0`. -/
def strExponent : List Char → Int
  | c :: cs =>
    if c = 'e' ∨ c = 'E' then
      match cs with
      | '-' :: ds => if (spanDigits ds).1 = [] then 0 else -(natOfDigits (spanDigits ds).1 : Int)
      | '+' :: ds => (natOfDigits (spanDigits ds).1 : Int)
      | ds => (natOfDigits (spanDigits ds).1 : Int)
    else 0
  | [] => 0

/-- The value of the longest prefix that is a `StrUnsignedDecimalLiteral`: `Infinity`, or
digits with an optional fraction and exponent; `NaN` when there is no such prefix. -/
def strUnsignedDecimal (neg : Bool) (cs : List Char) : F64 :=
  if cs.take 8 = ['I', 'n', 'f', 'i', 'n', 'i', 't', 'y'] then .inf neg
  else
    let ip := (spanDigits cs).1
    let r1 := (spanDigits cs).2
    match r1 with
    | '.' :: r =>
      let fp := (spanDigits r).1
      if ip = [] ∧ fp = [] then .nan
      else decToF64 neg (natOfDigits (ip ++ fp)) (strExponent (spanDigits r).2 - fp.length)
    | _ => if ip = [] then .nan else decToF64 neg (natOfDigits ip) (strExponent r1)

/-- JS `parseFloat` applied to an attribute value: `none` is `null`, whose string form `"null"`
is not numeric. Leading white space is trimmed, then the longest prefix that is a
`StrDecimalLiteral` is read and rounded to the nearest double. -/
def parseFloat (v : Option String) : F64 :=
  match trimStart (match v with | none => ['n', 'u', 'l', 'l'] | some s => s.data) with
  | '-' :: cs => strUnsignedDecimal true cs
  | '+' :: cs => strUnsignedDecimal false cs
  | cs => strUnsignedDecimal false cs

/-! ## Cart data -/

/-- The object built by the click handler (lines 186-191): four `getAttribute` results, each a
string or `null` (`none`). -/
structure Product where
  id : Option String
  name : Option String
  price : Option String
  image : Option String
  deriving DecidableEq, Repr

/-- An element of `this.items` as `addItem` creates it (lines 38-44). `quantity` is a JS number
holding a count; counts are natural numbers here, with which the arithmetic of doubles agrees
on counts below `2^53` (`ofNat_add`). -/
structure Item where
  id : Option String
  name : Option String
  price : F64
  image : Option String
  quantity : Nat
  deriving DecidableEq, Repr

/-- Errors a call can throw. -/
inductive JSError where
  | syntaxError
  | quotaExceededError
  deriving DecidableEq, Repr

/-- The browser's `localStorage`: its key/value pairs, and whether the host refuses writes
(quota exceeded, storage unavailable). -/
structure LocalStorage where
  data : List (String × String)
  refusesWrites : Bool
  deriving DecidableEq, Repr

/-- `localStorage.getItem(key)`: the stored string, or `null`. -/
def LocalStorage.getItem (st : LocalStorage) (key : String) : Option String :=
  (st.data.find? (fun kv => kv.1 = key)).map (fun kv => kv.2)

/-- Replace the value under `key`, or add the pair at the end. -/
def LocalStorage.put (key value : String) : List (String × String) → List (String × String)
  | [] => [(key, value)]
  | kv :: rest => if kv.1 = key then (key, value) :: rest else kv :: LocalStorage.put key value rest

/-- `localStorage.setItem(key, value)`: throws when the host refuses the write. -/
def LocalStorage.setItem (st : LocalStorage) (key value : String) : Except JSError LocalStorage :=
  if st.refusesWrites then .error .quotaExceededError
  else .ok { st with data := LocalStorage.put key value st.data }

/-! ## `Number::toString` -/

/-- Decimal digits with explicit fuel, most significant first. -/
def decDigitsAux : Nat → Nat → List Char → List Char
  | 0, _, acc => acc
  | fuel + 1, n, acc =>
    if n < 10 then Char.ofNat (48 + n) :: acc
    else decDigitsAux fuel (n / 10) (Char.ofNat (48 + n % 10) :: acc)

/-- The decimal representation of `n`, without leading zeros (`"0"` for `0`). -/
def decDigits (n : Nat) : List Char := decDigitsAux (n + 1) n []

/-- A decimal candidate `s * 10^e` denotes the finite magnitude `m` when it rounds to it. -/
def denotes (m : Nat) (c : Nat × Int) : Bool := decide (decToF64 false c.1 c.2 = .fin false m)

/-- The decimal of `k` digits just above `lo * 10^e`: `(lo + 1) * 10^e`, written with `k`
digits when `lo + 1` reaches `10^k`. -/
def nextDec (k lo : Nat) (e : Int) : Nat × Int :=
  if lo + 1 = 10 ^ k then (10 ^ (k - 1), e + 1) else (lo + 1, e)

/-- Search for the shortest decimal `s * 10^(n0 - k)` that rounds to `m`, trying `k`, `k + 1`,
... for `fuel` steps. For each length the two decimals around the exact value are tried and,
when both round to `m`, the nearer one is taken (the even one on a tie). -/
def shortestAux (m : Nat) (n0 : Int) : Nat → Nat → Option (Nat × Int)
  | 0, _ => none
  | fuel + 1, k =>
    let e : Int := n0 - k
    let p := m * 10 ^ (-e).toNat
    let q := F64.unit * 10 ^ e.toNat
    if denotes m (p / q, e) then
      if denotes m (nextDec k (p / q) e) then
        if 2 * (p % q) < q then some (p / q, e)
        else if q < 2 * (p % q) then some (nextDec k (p / q) e)
        else if (p / q) % 2 = 0 then some (p / q, e) else some (nextDec k (p / q) e)
      else some (p / q, e)
    else if denotes m (nextDec k (p / q) e) then some (nextDec k (p / q) e)
    else shortestAux m n0 fuel (k + 1)

/-- The digits `s` and exponent `e` that `Number::toString` prints for the finite positive
magnitude `m`: the shortest decimal, of at most 17 digits, that rounds to `m`. (The exact
binary expansion stands in should the search find nothing.) -/
def shortestDec (m : Nat) : Nat × Int :=
  let n0 : Int := ((decDigits (m * 10 ^ 324 / F64.unit)).length : Int) - 324
  match shortestAux m n0 17 1 with
  | some c => c
  | none => (m * 5 ^ 1074, -1074)

/-- The text of `s * 10^e` as `Number::toString` lays it out: plain digits, a decimal point
inside or in front of the digits, or exponent form, according to `n = e + k`, with `k` the
number of digits. -/
def formatDec (s : Nat) (e : Int) : List Char :=
  let ds := decDigits s
  let k := ds.length
  let n : Int := e + k
  if (k : Int) ≤ n ∧ n ≤ 21 then ds ++ List.replicate (n - k).toNat '0'
  else if 0 < n ∧ n ≤ 21 then ds.take n.toNat ++ '.' :: ds.drop n.toNat
  else if -6 < n ∧ n ≤ 0 then '0' :: '.' :: (List.replicate (-n).toNat '0' ++ ds)
  else
    let ex := if 0 < n - 1 then '+' :: decDigits (n - 1).toNat else '-' :: decDigits (1 - n).toNat
    match ds with
    | [] => []
    | d :: rest => if rest = [] then d :: 'e' :: ex else d :: '.' :: (rest ++ 'e' :: ex)

/-- JS `Number::toString` (radix 10). -/
def numberToString : F64 → List Char
  | .nan => ['N', 'a', 'N']
  | .inf false => ['I', 'n', 'f', 'i', 'n', 'i', 't', 'y']
  | .inf true => ['-', 'I', 'n', 'f', 'i', 'n', 'i', 't', 'y']
  | .fin neg m =>
    if m = 0 then ['0']
    else if neg then '-' :: formatDec (shortestDec m).1 (shortestDec m).2
    else formatDec (shortestDec m).1 (shortestDec m).2

/-! ## JSON -/

/-- The values `JSON.parse` can return and `JSON.stringify` is applied to. Strings are
sequences of Unicode scalar values; an object lists its properties in creation order. -/
inductive JSVal where
  | null
  | bool (b : Bool)
  | num (x : F64)
  | str (s : String)
  | arr (xs : List JSVal)
  | obj (props : List (String × JSVal))

mutual
/-- Structural equality test on JS values. -/
def JSVal.beq : JSVal → JSVal → Bool
  | .null, .null => true
  | .bool a, .bool b => a == b
  | .num a, .num b => a == b
  | .str a, .str b => a == b
  | .arr a, .arr b => JSVal.beqList a b
  | .obj a, .obj b => JSVal.beqProps a b
  | _, _ => false
/-- Structural equality test on lists of JS values. -/
def JSVal.beqList : List JSVal → List JSVal → Bool
  | [], [] => true
  | a :: as, b :: bs => JSVal.beq a b && JSVal.beqList as bs
  | _, _ => false
/-- Structural equality test on property lists. -/
def JSVal.beqProps : List (String × JSVal) → List (String × JSVal) → Bool
  | [], [] => true
  | (k, a) :: as, (l, b) :: bs => k == l && JSVal.beq a b && JSVal.beqProps as bs
  | _, _ => false
end

mutual
theorem JSVal.eq_of_beq : ∀ (a b : JSVal), JSVal.beq a b = true → a = b
  | .null, .null, _ => rfl
  | .bool a, .bool b, h => by simp [JSVal.beq] at h; simp [h]
  | .num a, .num b, h => by simp [JSVal.beq] at h; simp [h]
  | .str a, .str b, h => by simp [JSVal.beq] at h; simp [h]
  | .arr a, .arr b, h => by simp [JSVal.beq] at h; simp [JSVal.eq_of_beqList a b h]
  | .obj a, .obj b, h => by simp [JSVal.beq] at h; simp [JSVal.eq_of_beqProps a b h]
  | .null, .bool _, h | .null, .num _, h | .null, .str _, h | .null, .arr _, h
  | .null, .obj _, h => by simp [JSVal.beq] at h
  | .bool _, .null, h | .bool _, .num _, h | .bool _, .str _, h | .bool _, .arr _, h
  | .bool _, .obj _, h => by simp [JSVal.beq] at h
  | .num _, .null, h | .num _, .bool _, h | .num _, .str _, h | .num _, .arr _, h
  | .num _, .obj _, h => by simp [JSVal.beq] at h
  | .str _, .null, h | .str _, .bool _, h | .str _, .num _, h | .str _, .arr _, h
  | .str _, .obj _, h => by simp [JSVal.beq] at h
  | .arr _, .null, h | .arr _, .bool _, h | .arr _, .num _, h | .arr _, .str _, h
  | .arr _, .obj _, h => by simp [JSVal.beq] at h
  | .obj _, .null, h | .obj _, .bool _, h | .obj _, .num _, h | .obj _, .str _, h
  | .obj _, .arr _, h => by simp [JSVal.beq] at h
theorem JSVal.eq_of_beqList : ∀ (a b : List JSVal), JSVal.beqList a b = true → a = b
  | [], [], _ => rfl
  | a :: as, b :: bs, h => by
    simp [JSVal.beqList] at h
    simp [JSVal.eq_of_beq a b h.1, JSVal.eq_of_beqList as bs h.2]
  | [], _ :: _, h | _ :: _, [], h => by simp [JSVal.beqList] at h
theorem JSVal.eq_of_beqProps :
    ∀ (a b : List (String × JSVal)), JSVal.beqProps a b = true → a = b
  | [], [], _ => rfl
  | (k, a) :: as, (l, b) :: bs, h => by
    simp [JSVal.beqProps] at h
    simp [h.1.1, JSVal.eq_of_beq a b h.1.2, JSVal.eq_of_beqProps as bs h.2]
  | [], _ :: _, h | _ :: _, [], h => by simp [JSVal.beqProps] at h
end

mutual
theorem JSVal.beq_self : ∀ (a : JSVal), JSVal.beq a a = true
  | .null => rfl
  | .bool a => by simp [JSVal.beq]
  | .num a => by simp [JSVal.beq]
  | .str a => by simp [JSVal.beq]
  | .arr a => by simp [JSVal.beq, JSVal.beqList_self a]
  | .obj a => by simp [JSVal.beq, JSVal.beqProps_self a]
theorem JSVal.beqList_self : ∀ (a : List JSVal), JSVal.beqList a a = true
  | [] => rfl
  | a :: as => by simp [JSVal.beqList, JSVal.beq_self a, JSVal.beqList_self as]
theorem JSVal.beqProps_self : ∀ (a : List (String × JSVal)), JSVal.beqProps a a = true
  | [] => rfl
  | (k, a) :: as => by simp [JSVal.beqProps, JSVal.beq_self a, JSVal.beqProps_self as]
end

instance : DecidableEq JSVal := fun a b =>
  if h : JSVal.beq a b = true then isTrue (JSVal.eq_of_beq a b h)
  else isFalse (fun e => h (e ▸ JSVal.beq_self a))

instance : DecidableEq (Except JSError JSVal)
  | .ok a, .ok b => if h : a = b then isTrue (h ▸ rfl) else isFalse (fun e => h (by cases e; rfl))
  | .error a, .error b =>
    if h : a = b then isTrue (h ▸ rfl) else isFalse (fun e => h (by cases e; rfl))
  | .ok _, .error _ => isFalse (fun e => by cases e)
  | .error _, .ok _ => isFalse (fun e => by cases e)

/-- Lower-case hexadecimal digit. -/
def hexDigit (n : Nat) : Char := if n < 10 then Char.ofNat (48 + n) else Char.ofNat (87 + n)

/-- `QuoteJSONString` on one code point: the two-character escapes, `\uXXXX` for the other
control characters, the character itself otherwise. -/
def quoteJSONChar (c : Char) : List Char :=
  if c = '"' then ['\\', '"']
  else if c = '\\' then ['\\', '\\']
  else if c.toNat = 8 then ['\\', 'b']
  else if c.toNat = 9 then ['\\', 't']
  else if c.toNat = 10 then ['\\', 'n']
  else if c.toNat = 12 then ['\\', 'f']
  else if c.toNat = 13 then ['\\', 'r']
  else if c.toNat < 32 then ['\\', 'u', '0', '0', hexDigit (c.toNat / 16), hexDigit (c.toNat % 16)]
  else [c]

/-- The escaped body of a string, between the quotes. -/
def quoteJSONBody : List Char → List Char
  | [] => []
  | c :: cs => quoteJSONChar c ++ quoteJSONBody cs

/-- `QuoteJSONString`. -/
def quoteJSONString (s : String) : List Char := '"' :: (quoteJSONBody s.data ++ ['"'])

/-- `SerializeJSONProperty` on a number: non-finite numbers are written as `null`. -/
def JSON.renderNumber : F64 → List Char
  | .fin neg m => numberToString (.fin neg m)
  | _ => ['n', 'u', 'l', 'l']

mutual
/-- The JSON text of a value, without indentation. -/
def JSON.render : JSVal → List Char
  | .null => ['n', 'u', 'l', 'l']
  | .bool true => ['t', 'r', 'u', 'e']
  | .bool false => ['f', 'a', 'l', 's', 'e']
  | .num x => JSON.renderNumber x
  | .str s => quoteJSONString s
  | .arr [] => ['[', ']']
  | .arr (v :: vs) => '[' :: (JSON.render v ++ JSON.renderElems vs)
  | .obj [] => ['{', '}']
  | .obj ((k, v) :: ps) => '{' :: (quoteJSONString k ++ ':' :: (JSON.render v ++ JSON.renderProps ps))
/-- The remaining elements of an array, each after a comma, and the closing bracket. -/
def JSON.renderElems : List JSVal → List Char
  | [] => [']']
  | v :: vs => ',' :: (JSON.render v ++ JSON.renderElems vs)
/-- The remaining properties of an object, each after a comma, and the closing brace. -/
def JSON.renderProps : List (String × JSVal) → List Char
  | [] => ['}']
  | (k, v) :: ps => ',' :: (quoteJSONString k ++ ':' :: (JSON.render v ++ JSON.renderProps ps))
end

/-- JS `JSON.stringify(value)`. -/
def JSON.stringify (v : JSVal) : String := String.mk (JSON.render v)

/-- JSON white space: space, tab, line feed, carriage return. -/
def JSON.isWs (c : Char) : Bool := c = ' ' || c.toNat = 9 || c.toNat = 10 || c.toNat = 13

/-- Drop leading JSON white space. -/
def JSON.skipWs : List Char → List Char
  | [] => []
  | c :: cs => if JSON.isWs c then JSON.skipWs cs else c :: cs

/-- Value of a hexadecimal digit, either case. -/
def JSON.hexVal (c : Char) : Option Nat :=
  let n := c.toNat
  if 48 ≤ n ∧ n ≤ 57 then some (n - 48)
  else if 97 ≤ n ∧ n ≤ 102 then some (n - 87)
  else if 65 ≤ n ∧ n ≤ 70 then some (n - 55)
  else none

/-- Value of four hexadecimal digits. -/
def JSON.hex4 (a b c d : Char) : Option Nat :=
  match JSON.hexVal a, JSON.hexVal b, JSON.hexVal c, JSON.hexVal d with
  | some w, some x, some y, some z => some (((w * 16 + x) * 16 + y) * 16 + z)
  | _, _, _, _ => none

/-- The character for the surrogate escape left pending, if any: an unpaired surrogate has no
scalar value and reads as U+FFFD. -/
def JSON.flush : Option Nat → List Char
  | none => []
  | some _ => [Char.ofNat 0xFFFD]

/-- Put characters in front of a parsed string body. -/
def JSON.prepend (cs : List Char) (r : Option (List Char × List Char)) :
    Option (List Char × List Char) :=
  r.map (fun p => (cs ++ p.1, p.2))

/-- The character a two-character escape `\\e` stands for, if `e` is one of the escape
letters of JSON. -/
def JSON.unescape (e : Char) : Option Char :=
  if e = '"' then some '"' else if e = '\\' then some '\\' else if e = '/' then some '/'
  else if e = 'b' then some (Char.ofNat 8) else if e = 'f' then some (Char.ofNat 12)
  else if e = 'n' then some (Char.ofNat 10) else if e = 'r' then some (Char.ofNat 13)
  else if e = 't' then some (Char.ofNat 9) else none

/-- The characters of a string literal after its opening quote, unescaped, and the input after
the closing quote. `pending` is a high surrogate read from a `\u` escape just before; followed
by a `\u` escape of a low surrogate the two make one character. -/
def JSON.parseStringBody (pending : Option Nat) : List Char → Option (List Char × List Char)
  | [] => none
  | '"' :: rest => some (JSON.flush pending, rest)
  | '\\' :: 'u' :: a :: b :: c :: d :: rest =>
    match JSON.hex4 a b c d with
    | none => none
    | some u =>
      if 0xDC00 ≤ u ∧ u < 0xE000 then
        match pending with
        | some hi =>
          JSON.prepend [Char.ofNat (0x10000 + (hi - 0xD800) * 0x400 + (u - 0xDC00))]
            (JSON.parseStringBody none rest)
        | none => JSON.prepend [Char.ofNat 0xFFFD] (JSON.parseStringBody none rest)
      else if 0xD800 ≤ u ∧ u < 0xDC00 then
        JSON.prepend (JSON.flush pending) (JSON.parseStringBody (some u) rest)
      else JSON.prepend (JSON.flush pending ++ [Char.ofNat u]) (JSON.parseStringBody none rest)
  | '\\' :: e :: rest =>
    match JSON.unescape e with
    | none => none
    | some c => JSON.prepend (JSON.flush pending ++ [c]) (JSON.parseStringBody none rest)
  | c :: rest =>
    if c.toNat < 32 ∨ c = '\\' then none
    else JSON.prepend (JSON.flush pending ++ [c]) (JSON.parseStringBody none rest)

/-- The exponent part of a JSON number, if any, and the input after it: `e` or `E`, an optional
sign and at least one digit. `none` when the exponent is started but has no digit. -/
def JSON.parseExponent : List Char → Option (Int × List Char)
  | c :: cs =>
    if c = 'e' ∨ c = 'E' then
      match cs with
      | '-' :: ds =>
        if (spanDigits ds).1 = [] then none
        else some (-(natOfDigits (spanDigits ds).1 : Int), (spanDigits ds).2)
      | '+' :: ds =>
        if (spanDigits ds).1 = [] then none
        else some ((natOfDigits (spanDigits ds).1 : Int), (spanDigits ds).2)
      | ds =>
        if (spanDigits ds).1 = [] then none
        else some ((natOfDigits (spanDigits ds).1 : Int), (spanDigits ds).2)
    else some (0, c :: cs)
  | [] => some (0, [])

/-- The fraction and exponent after the integer digits `ip` of a JSON number. -/
def JSON.parseFraction (neg : Bool) (ip : List Char) : List Char → Option (F64 × List Char)
  | '.' :: r =>
    if (spanDigits r).1 = [] then none
    else
      (JSON.parseExponent (spanDigits r).2).map (fun ex =>
        (decToF64 neg (natOfDigits (ip ++ (spanDigits r).1)) (ex.1 - ((spanDigits r).1.length : Int)),
          ex.2))
  | r => (JSON.parseExponent r).map (fun ex => (decToF64 neg (natOfDigits ip) ex.1, ex.2))

/-- An unsigned JSON number: `0` or digits without a leading zero, then an optional fraction
and exponent; its value is the nearest double. -/
def JSON.parseUnsigned (neg : Bool) (cs : List Char) : Option (F64 × List Char) :=
  match (spanDigits cs).1 with
  | [] => none
  | d :: ds =>
    if d = '0' ∧ ds ≠ [] then none
    else JSON.parseFraction neg (d :: ds) (spanDigits cs).2

/-- A JSON number at the head of the input. -/
def JSON.parseNumber : List Char → Option (F64 × List Char)
  | '-' :: cs => JSON.parseUnsigned true cs
  | cs => JSON.parseUnsigned false cs

/-- `CreateDataProperty` while an object literal is read: a repeated key keeps its place and
takes the new value. (Properties stay in reading order; JS lists those whose key is an array
index first, which no cart item has.) -/
def JSVal.setProp (k : String) (v : JSVal) : List (String × JSVal) → List (String × JSVal)
  | [] => [(k, v)]
  | kv :: rest => if kv.1 = k then (k, v) :: rest else kv :: JSVal.setProp k v rest

/-- The property list of an object literal whose members were read in the given order. -/
def JSVal.mkProps (members : List (String × JSVal)) : List (String × JSVal) :=
  members.foldl (fun acc kv => JSVal.setProp kv.1 kv.2 acc) []

mutual
/-- A JSON value at the head of the input (no leading white space), and the input after it.
Every nested call runs on a shorter input with one unit of fuel less, so fuel above the input
length never runs out. -/
def JSON.parseValue : Nat → List Char → Option (JSVal × List Char)
  | 0, _ => none
  | fuel + 1, cs =>
    match cs with
    | 'n' :: 'u' :: 'l' :: 'l' :: r => some (.null, r)
    | 't' :: 'r' :: 'u' :: 'e' :: r => some (.bool true, r)
    | 'f' :: 'a' :: 'l' :: 's' :: 'e' :: r => some (.bool false, r)
    | '"' :: r => (JSON.parseStringBody none r).map (fun p => (.str (String.mk p.1), p.2))
    | '[' :: r =>
      match JSON.skipWs r with
      | ']' :: r1 => some (.arr [], r1)
      | r1 =>
        match JSON.parseValue fuel r1 with
        | none => none
        | some (v, r2) => (JSON.parseElems fuel r2).map (fun p => (.arr (v :: p.1), p.2))
    | '{' :: r =>
      match JSON.skipWs r with
      | '}' :: r1 => some (.obj [], r1)
      | r1 => (JSON.parseMember fuel r1).map (fun p => (.obj (JSVal.mkProps p.1), p.2))
    | _ => (JSON.parseNumber cs).map (fun p => (.num p.1, p.2))
/-- The rest of an array after an element: `]`, or `,` and the next element. -/
def JSON.parseElems : Nat → List Char → Option (List JSVal × List Char)
  | 0, _ => none
  | fuel + 1, cs =>
    match JSON.skipWs cs with
    | ']' :: r => some ([], r)
    | ',' :: r =>
      match JSON.parseValue fuel (JSON.skipWs r) with
      | none => none
      | some (v, r1) => (JSON.parseElems fuel r1).map (fun p => (v :: p.1, p.2))
    | _ => none
/-- A member `"key" : value` at the head of the input, then the rest of the object. -/
def JSON.parseMember : Nat → List Char → Option (List (String × JSVal) × List Char)
  | 0, _ => none
  | fuel + 1, cs =>
    match cs with
    | '"' :: r =>
      match JSON.parseStringBody none r with
      | none => none
      | some (k, r1) =>
        match JSON.skipWs r1 with
        | ':' :: r2 =>
          match JSON.parseValue fuel (JSON.skipWs r2) with
          | none => none
          | some (v, r3) => (JSON.parseMembers fuel r3).map (fun p => ((String.mk k, v) :: p.1, p.2))
        | _ => none
    | _ => none
/-- The rest of an object after a member: `}`, or `,` and the next member. -/
def JSON.parseMembers : Nat → List Char → Option (List (String × JSVal) × List Char)
  | 0, _ => none
  | fuel + 1, cs =>
    match JSON.skipWs cs with
    | '}' :: r => some ([], r)
    | ',' :: r => JSON.parseMember fuel (JSON.skipWs r)
    | _ => none
end

/-- The input does not start with a decimal digit. -/
def noDigitHead : List Char → Bool
  | [] => true
  | c :: _ => !isDecDigit c

/-- The input after a number does not go on as a number: it is empty or starts with a
character other than a digit, `.`, `e` and `E`. -/
def numEnd : List Char → Bool
  | [] => true
  | c :: _ => !isDecDigit c && c != '.' && c != 'e' && c != 'E'

/-- What `parseMember` needs of a printed value followed by `tail`: it reads back with fuel
`fuel`, and starts with no white space. -/
def ReadsBack (fuel : Nat) (v : JSVal) (tail : List Char) : Prop :=
  JSON.parseValue fuel (JSON.render v ++ tail) = some (v, tail) ∧
    JSON.skipWs (JSON.render v ++ tail) = JSON.render v ++ tail

instance (fuel : Nat) (v : JSVal) (tail : List Char) : Decidable (ReadsBack fuel v tail) := by
  unfold ReadsBack
  infer_instance

/-- JS `JSON.parse(text)`: the value of a text that is one JSON value between optional white
space; a `SyntaxError` is thrown for any other text. -/
def JSON.parse (text : String) : Except JSError JSVal :=
  match JSON.parseValue (text.data.length + 1) (JSON.skipWs text.data) with
  | some (v, rest) => if JSON.skipWs rest = [] then .ok v else .error .syntaxError
  | none => .error .syntaxError

/-! ## The cart -/

/-- A string-or-`null` attribute value as a JS value. -/
def JSVal.ofAttr : Option String → JSVal
  | none => .null
  | some s => .str s

/-- The object `addItem` pushes, as a JS value: properties `id`, `name`, `price`, `image`,
`quantity`, in the order of the object literal (lines 38-44). -/
def Item.toJS (i : Item) : JSVal :=
  .obj [("id", JSVal.ofAttr i.id), ("name", JSVal.ofAttr i.name), ("price", .num i.price),
    ("image", JSVal.ofAttr i.image), ("quantity", .num (F64.ofNat i.quantity))]

/-- The array `this.items` as a JS value. -/
def itemsToJS (items : List Item) : JSVal := .arr (items.map Item.toJS)

/-- Whether an item is written to JSON without loss: its price is a double that
`JSON.stringify` writes exactly, and its quantity is a count below `2^53`. -/
def Item.persistable (i : Item) : Bool :=
  i.price.IsDouble && i.price.jsonExact && decide (i.quantity < 2 ^ 53)

/-- A `ShoppingCart` instance together with the `localStorage` it writes to. -/
structure ShoppingCart where
  items : List Item
  storage : LocalStorage
  deriving DecidableEq, Repr

/-- The state after a method call, and the exception the call threw, if any. -/
structure Outcome where
  cart : ShoppingCart
  thrown : Option JSError
  deriving DecidableEq, Repr

/-- The storage key of `loadCart` and `saveCart`. -/
def cartKey : String := "nutrijoseph_cart"

/-- Method `loadCart` (lines 21-24): `JSON.parse` of the saved string when it is truthy, the
empty array when the slot is absent (`null`) or holds the empty string. The result is
assigned to `this.items` by the constructor (line 11). -/
def ShoppingCart.loadCart (storage : LocalStorage) : Except JSError JSVal :=
  match storage.getItem cartKey with
  | none => .ok (.arr [])
  | some savedCart => if savedCart = "" then .ok (.arr []) else JSON.parse savedCart

/-- Method `saveCart` (lines 27-29). -/
def ShoppingCart.saveCart (c : ShoppingCart) : Outcome :=
  match c.storage.setItem cartKey (JSON.stringify (itemsToJS c.items)) with
  | .ok storage => { cart := { c with storage := storage }, thrown := none }
  | .error e => { cart := c, thrown := some e }

/-- The statement `existingItem.quantity += 1` on the item `find` returned: the first item
with the given id. -/
def bumpFirst (id : Option String) : List Item → List Item
  | [] => []
  | item :: rest =>
    if item.id = id then { item with quantity := item.quantity + 1 } :: rest
    else item :: bumpFirst id rest

/-- The list `this.items` after lines 33-45 of `addItem`. -/
def addToItems (items : List Item) (product : Product) : List Item :=
  match items.find? (fun item => item.id = product.id) with
  | some _ => bumpFirst product.id items
  | none =>
    items ++ [{ id := product.id, name := product.name, price := parseFloat product.price,
                image := product.image, quantity := 1 }]

/-- Method `addItem` (lines 32-51): update `this.items`, then `saveCart`. -/
def ShoppingCart.addItem (c : ShoppingCart) (product : Product) : Outcome :=
  ShoppingCart.saveCart { c with items := addToItems c.items product }

/-- Method `removeItem` (lines 54-59): filter `this.items`, then `saveCart`. -/
def ShoppingCart.removeItem (c : ShoppingCart) (productId : Option String) : Outcome :=
  ShoppingCart.saveCart { c with items := c.items.filter (fun item => item.id ≠ productId) }

/-- Method `getTotalItems` (lines 62-64). -/
def ShoppingCart.getTotalItems (c : ShoppingCart) : Nat :=
  c.items.foldl (fun total item => total + item.quantity) 0

/-- Method `getTotalPrice` (lines 67-69): the running total starts at `0`; each step multiplies
and adds in double precision. -/
def ShoppingCart.getTotalPrice (c : ShoppingCart) : F64 :=
  c.items.foldl (fun total item => F64.add total (F64.mul item.price (F64.ofNat item.quantity)))
    F64.zero

/-- The checkout click handler (lines 227-235): a non-empty cart is emptied and saved. -/
def ShoppingCart.checkout (c : ShoppingCart) : Outcome :=
  if c.items.length > 0 then ShoppingCart.saveCart { c with items := [] }
  else { cart := c, thrown := none }

/-- A call that changes the cart. -/
inductive Call where
  | addItem (product : Product)
  | removeItem (productId : Option String)
  | checkout
  deriving DecidableEq, Repr

/-- The outcome of one call. -/
def ShoppingCart.call (c : ShoppingCart) : Call → Outcome
  | .addItem product => c.addItem product
  | .removeItem productId => c.removeItem productId
  | .checkout => c.checkout

/-- The cart after a sequence of calls; a call that throws leaves the instance as it was at
the throw, and the page goes on with it. -/
def ShoppingCart.run (c : ShoppingCart) : List Call → ShoppingCart
  | [] => c
  | call :: calls => ShoppingCart.run (c.call call).cart calls

/-- A cart whose item list is empty, over any storage. -/
def ShoppingCart.empty (storage : LocalStorage) : ShoppingCart := { items := [], storage := storage }

/-- The exact value of `sum of price * quantity`, in units of `2^-1074`, when every price is
finite. -/
def exactTotalUnits : List Item → Option Int
  | [] => some 0
  | item :: rest =>
    match item.price.units, exactTotalUnits rest with
    | some u, some t => some (u * item.quantity + t)
    | _, _ => none

/-! ## Basic facts about the list operations -/

theorem saveCart_items (c : ShoppingCart) : c.saveCart.cart.items = c.items := by
  unfold ShoppingCart.saveCart
  cases c.storage.setItem cartKey (JSON.stringify (itemsToJS c.items)) <;> rfl

theorem addItem_items (c : ShoppingCart) (p : Product) :
    (c.addItem p).cart.items = addToItems c.items p := by
  simp [ShoppingCart.addItem, saveCart_items]

theorem removeItem_items (c : ShoppingCart) (id : Option String) :
    (c.removeItem id).cart.items = c.items.filter (fun item => item.id ≠ id) := by
  simp [ShoppingCart.removeItem, saveCart_items]

theorem checkout_items (c : ShoppingCart) : c.checkout.cart.items = [] := by
  unfold ShoppingCart.checkout
  split
  · simp [saveCart_items]
  · rename_i h
    simpa using h

theorem bumpFirst_ids (id : Option String) (items : List Item) :
    (bumpFirst id items).map (fun i => i.id) = items.map (fun i => i.id) := by
  induction items with
  | nil => rfl
  | cons x xs ih =>
    unfold bumpFirst
    split
    · simp
    · simp [ih]

theorem find_none_iff (items : List Item) (id : Option String) :
    items.find? (fun item => item.id = id) = none ↔ ∀ x ∈ items, x.id ≠ id := by
  simp [List.find?_eq_none]

theorem addToItems_nodup (items : List Item) (p : Product)
    (h : (items.map (fun i => i.id)).Nodup) :
    ((addToItems items p).map (fun i => i.id)).Nodup := by
  unfold addToItems
  split
  · rw [bumpFirst_ids]; exact h
  · rename_i hnone
    rw [find_none_iff] at hnone
    rw [List.map_append, List.nodup_append]
    refine ⟨h, by simp, ?_⟩
    intro a ha hb
    simp at ha hb
    obtain ⟨x, hx, rfl⟩ := ha
    exact hnone x hx hb

theorem filter_ids_nodup (items : List Item) (q : Item → Bool)
    (h : (items.map (fun i => i.id)).Nodup) :
    ((items.filter q).map (fun i => i.id)).Nodup :=
  h.sublist ((List.filter_sublist items).map _)

theorem call_nodup (c : ShoppingCart) (call : Call)
    (h : (c.items.map (fun i => i.id)).Nodup) :
    (((c.call call).cart.items).map (fun i => i.id)).Nodup := by
  cases call with
  | addItem p => simpa [ShoppingCart.call, addItem_items] using addToItems_nodup c.items p h
  | removeItem id =>
    simp only [ShoppingCart.call, removeItem_items]
    exact filter_ids_nodup c.items _ h
  | checkout => simp [ShoppingCart.call, checkout_items]

theorem run_nodup (calls : List Call) : ∀ (c : ShoppingCart),
    (c.items.map (fun i => i.id)).Nodup → (((c.run calls).items).map (fun i => i.id)).Nodup := by
  induction calls with
  | nil => intro c h; exact h
  | cons call calls ih => intro c h; exact ih _ (call_nodup c call h)

theorem cart_ids_unique (storage : LocalStorage) (calls : List Call) :
    ((((ShoppingCart.empty storage).run calls).items).map (fun i => i.id)).Nodup :=
  run_nodup calls _ (by simp [ShoppingCart.empty])

theorem bumpFirst_split (id : Option String) (pre post : List Item) (x : Item)
    (hpre : ∀ y ∈ pre, y.id ≠ id) (hx : x.id = id) :
    bumpFirst id (pre ++ x :: post) = pre ++ { x with quantity := x.quantity + 1 } :: post := by
  induction pre with
  | nil => simp [bumpFirst, hx]
  | cons y ys ih =>
    have hy : y.id ≠ id := hpre y (by simp)
    have := ih (fun z hz => hpre z (by simp [hz]))
    simp [bumpFirst, hy, this]

theorem first_match_split (id : Option String) (items : List Item)
    (h : ∃ x ∈ items, x.id = id) :
    ∃ pre x post, items = pre ++ x :: post ∧ (∀ y ∈ pre, y.id ≠ id) ∧ x.id = id := by
  induction items with
  | nil => simp at h
  | cons y ys ih =>
    by_cases hy : y.id = id
    · exact ⟨[], y, ys, rfl, by simp, hy⟩
    · obtain ⟨x, hx, hxid⟩ := h
      have hx2 : x ∈ ys := by
        rcases List.mem_cons.mp hx with rfl | hx2
        · exact absurd hxid hy
        · exact hx2
      obtain ⟨pre, x2, post, rfl, hpre, hx2id⟩ := ih ⟨x, hx2, hxid⟩
      refine ⟨y :: pre, x2, post, rfl, ?_, hx2id⟩
      intro z hz
      rcases List.mem_cons.mp hz with rfl | hz
      · exact hy
      · exact hpre z hz

theorem addToItems_existing (items : List Item) (p : Product) (h : ∃ x ∈ items, x.id = p.id) :
    addToItems items p = bumpFirst p.id items := by
  unfold addToItems
  split
  · rfl
  · rename_i hnone
    rw [find_none_iff] at hnone
    obtain ⟨x, hx, hxid⟩ := h
    exact absurd hxid (hnone x hx)

theorem addToItems_fresh (items : List Item) (p : Product) (h : ∀ x ∈ items, x.id ≠ p.id) :
    addToItems items p =
      items ++ [{ id := p.id, name := p.name, price := parseFloat p.price,
                  image := p.image, quantity := 1 }] := by
  unfold addToItems
  split
  · rename_i y hsome
    have := List.find?_some hsome
    have hy := List.mem_of_find?_eq_some hsome
    simp at this
    exact absurd this (h y hy)
  · rfl

/-- C2. `addItem(product)` on any cart: if an item with `product.id` exists, the list splits at
the first such item as `pre ++ x :: post` and the result is the same list with only `x.quantity`
increased by one (same length and order, `x` keeps its stored name, price and image, every
other item is unchanged); otherwise the result is the previous list with one new item
appended at the end, carrying the product's id, name, parsed price and image and quantity 1. -/
theorem addItem_increments_or_appends (c : ShoppingCart) (p : Product) :
    ((∃ x ∈ c.items, x.id = p.id) →
      ∃ pre x post, c.items = pre ++ x :: post ∧ (∀ y ∈ pre, y.id ≠ p.id) ∧ x.id = p.id ∧
        (c.addItem p).cart.items =
          pre ++ { id := x.id, name := x.name, price := x.price, image := x.image,
                   quantity := x.quantity + 1 } :: post) ∧
    ((∀ x ∈ c.items, x.id ≠ p.id) →
      (c.addItem p).cart.items =
        c.items ++ [{ id := p.id, name := p.name, price := parseFloat p.price,
                      image := p.image, quantity := 1 }]) := by
  constructor
  · intro h
    obtain ⟨pre, x, post, hsplit, hpre, hx⟩ := first_match_split p.id c.items h
    refine ⟨pre, x, post, hsplit, hpre, hx, ?_⟩
    rw [addItem_items, addToItems_existing _ _ h, hsplit, bumpFirst_split _ _ _ _ hpre hx]
  · intro h
    rw [addItem_items, addToItems_fresh _ _ h]

/-- The scenario of the specification, last step: with `p1` then `p2` in the cart, adding
`p1` again leaves `p1` first with quantity 2 and `p2` second with quantity 1. -/
theorem addItem_increments_or_appends_witness :
    ((ShoppingCart.addItem
        ⟨[⟨some "p1", some "Protein", parseFloat (some "49.90"), some "p1.png", 1⟩,
          ⟨some "p2", some "Creatine", parseFloat (some "10.00"), some "p2.png", 1⟩], ⟨[], false⟩⟩
        ⟨some "p1", some "Protein", some "49.90", some "p1.png"⟩).cart.items =
      [⟨some "p1", some "Protein", parseFloat (some "49.90"), some "p1.png", 2⟩,
       ⟨some "p2", some "Creatine", parseFloat (some "10.00"), some "p2.png", 1⟩]) := by
  obtain ⟨pre, x, post, hsplit, hpre, hx, hres⟩ :=
    (addItem_increments_or_appends
      ⟨[⟨some "p1", some "Protein", parseFloat (some "49.90"), some "p1.png", 1⟩,
        ⟨some "p2", some "Creatine", parseFloat (some "10.00"), some "p2.png", 1⟩], ⟨[], false⟩⟩
      ⟨some "p1", some "Protein", some "49.90", some "p1.png"⟩).1
      ⟨⟨some "p1", some "Protein", parseFloat (some "49.90"), some "p1.png", 1⟩, by simp, rfl⟩
  rw [hres]
  cases pre with
  | nil =>
    simp only [List.nil_append, List.cons.injEq] at hsplit
    obtain ⟨rfl, rfl⟩ := hsplit
    simp
  | cons y ys =>
    simp only [List.cons_append, List.cons.injEq] at hsplit
    have := hpre y (by simp)
    rw [← hsplit.1] at this
    exact absurd rfl this

theorem foldl_quantity (items : List Item) (n : Nat) :
    items.foldl (fun total item => total + item.quantity) n =
      n + (items.map (fun i => i.quantity)).sum := by
  induction items generalizing n with
  | nil => simp
  | cons x xs ih => simp [ih, Nat.add_assoc]

theorem getTotalItems_eq_sum (c : ShoppingCart) :
    c.getTotalItems = (c.items.map (fun i => i.quantity)).sum := by
  simp [ShoppingCart.getTotalItems, foldl_quantity]

theorem run_same_id (rest : List Product) : ∀ (c : ShoppingCart) (x : Item),
    c.items = [x] → (∀ q ∈ rest, q.id = x.id) →
      (c.run (rest.map Call.addItem)).items =
        [{ id := x.id, name := x.name, price := x.price, image := x.image,
           quantity := x.quantity + rest.length }] := by
  induction rest with
  | nil => intro c x hc _; simpa [ShoppingCart.run] using hc
  | cons q qs ih =>
    intro c x hc hq
    have hqid : q.id = x.id := hq q (by simp)
    have hstep : ((c.call (Call.addItem q)).cart).items =
        [{ id := x.id, name := x.name, price := x.price, image := x.image,
           quantity := x.quantity + 1 }] := by
      simp [ShoppingCart.call, addItem_items, hc, addToItems, hqid, bumpFirst]
    have := ih _ _ hstep (fun r hr => hq r (by simp [hr]))
    simp only [List.map_cons, ShoppingCart.run, this, List.length_cons]
    simp
    omega

theorem run_same_id_from_empty (storage : LocalStorage) (p : Product) (rest : List Product)
    (h : ∀ q ∈ rest, q.id = p.id) :
    ((ShoppingCart.empty storage).run ((p :: rest).map Call.addItem)).items =
      [{ id := p.id, name := p.name, price := parseFloat p.price, image := p.image,
         quantity := rest.length + 1 }] := by
  have hfirst : (((ShoppingCart.empty storage).call (Call.addItem p)).cart).items =
      [{ id := p.id, name := p.name, price := parseFloat p.price, image := p.image,
         quantity := 1 }] := by
    simp [ShoppingCart.call, addItem_items, ShoppingCart.empty, addToItems]
  have := run_same_id rest _ _ hfirst h
  simp only [List.map_cons, ShoppingCart.run, this]
  simp [Nat.add_comm]

/-- C4. `getTotalItems()` is the sum of all item quantities and is 0 for the empty cart; and
for every `n ≥ 1`, `n` successive `addItem` calls with products of one id (`p` first, then the
`n - 1` products of `rest`) on an empty cart leave exactly one item, whose quantity is `n`, and
`getTotalItems()` returns `n`. -/
theorem getTotalItems_counts_adds :
    (∀ c : ShoppingCart, c.getTotalItems = (c.items.map (fun i => i.quantity)).sum) ∧
    (∀ storage : LocalStorage, (ShoppingCart.empty storage).getTotalItems = 0) ∧
    (∀ (storage : LocalStorage) (p : Product) (rest : List Product),
      (∀ q ∈ rest, q.id = p.id) →
        ((ShoppingCart.empty storage).run ((p :: rest).map Call.addItem)).items =
          [{ id := p.id, name := p.name, price := parseFloat p.price, image := p.image,
             quantity := rest.length + 1 }] ∧
        ((ShoppingCart.empty storage).run ((p :: rest).map Call.addItem)).getTotalItems =
          rest.length + 1) := by
  refine ⟨getTotalItems_eq_sum, fun storage => rfl, fun storage p rest h => ?_⟩
  have := run_same_id_from_empty storage p rest h
  exact ⟨this, by rw [getTotalItems_eq_sum, this]; simp⟩

/-- Adding one product twice gives quantity 2 and `getTotalItems() = 2`; three times, 3. -/
theorem getTotalItems_counts_adds_witness :
    (((ShoppingCart.empty ⟨[], false⟩).run
        [.addItem ⟨some "p1", some "Protein", some "49.90", some "p1.png"⟩,
         .addItem ⟨some "p1", some "Protein", some "49.90", some "p1.png"⟩]).getTotalItems = 2) ∧
    (((ShoppingCart.empty ⟨[], false⟩).run
        [.addItem ⟨some "p1", some "Protein", some "49.90", some "p1.png"⟩,
         .addItem ⟨some "p1", some "Protein", some "49.90", some "p1.png"⟩,
         .addItem ⟨some "p1", some "Protein", some "49.90", some "p1.png"⟩]).getTotalItems = 3) :=
  ⟨(getTotalItems_counts_adds.2.2 ⟨[], false⟩
      ⟨some "p1", some "Protein", some "49.90", some "p1.png"⟩
      [⟨some "p1", some "Protein", some "49.90", some "p1.png"⟩] (by simp)).2,
   (getTotalItems_counts_adds.2.2 ⟨[], false⟩
      ⟨some "p1", some "Protein", some "49.90", some "p1.png"⟩
      [⟨some "p1", some "Protein", some "49.90", some "p1.png"⟩,
       ⟨some "p1", some "Protein", some "49.90", some "p1.png"⟩] (by simp)).2⟩

theorem saveCart_thrown_none (c : ShoppingCart) (h : c.storage.refusesWrites = false) :
    c.saveCart.thrown = none := by
  simp [ShoppingCart.saveCart, LocalStorage.setItem, h]

theorem saveCart_thrown_some (c : ShoppingCart) (h : c.storage.refusesWrites = true) :
    c.saveCart = { cart := c, thrown := some .quotaExceededError } := by
  simp [ShoppingCart.saveCart, LocalStorage.setItem, h]

theorem filter_absent (items : List Item) (id : Option String) (h : ∀ x ∈ items, x.id ≠ id) :
    items.filter (fun item => item.id ≠ id) = items := by
  rw [List.filter_eq_self]
  intro x hx
  simpa using h x hx

/-- C5, as the code has it. `removeItem(id)` on any cart yields the previous list filtered to
the items whose id is not `id`: a sublist of the previous list (same items, same relative
order) that holds exactly the items with another id. Whether or not the id is in the cart,
the call throws what the storage write of `saveCart` throws: `QuotaExceededError` when the
storage refuses the write, nothing when the storage accepts it. When no item has that id, the
list, `getTotalItems()` and `getTotalPrice()` are the same after the call as before. -/
theorem removeItem_deletes_id (c : ShoppingCart) (id : Option String) :
    (c.removeItem id).cart.items = c.items.filter (fun item => item.id ≠ id) ∧
    (c.removeItem id).cart.items.Sublist c.items ∧
    (∀ x, x ∈ (c.removeItem id).cart.items ↔ x ∈ c.items ∧ x.id ≠ id) ∧
    (c.removeItem id).thrown =
      (if c.storage.refusesWrites then some JSError.quotaExceededError else none) ∧
    (c.storage.refusesWrites = false → (c.removeItem id).thrown = none) ∧
    ((∀ x ∈ c.items, x.id ≠ id) →
      (c.removeItem id).cart.items = c.items ∧
      (c.removeItem id).cart.getTotalItems = c.getTotalItems ∧
      (c.removeItem id).cart.getTotalPrice = c.getTotalPrice) := by
  refine ⟨removeItem_items c id, ?_, ?_, ?_, ?_, ?_⟩
  · rw [removeItem_items]; exact List.filter_sublist _
  · intro x; rw [removeItem_items]; simp [List.mem_filter]
  · cases hw : c.storage.refusesWrites
    · exact saveCart_thrown_none
        { c with items := c.items.filter (fun item => item.id ≠ id) } hw
    · have := saveCart_thrown_some
        { c with items := c.items.filter (fun item => item.id ≠ id) } hw
      unfold ShoppingCart.removeItem
      rw [this]
      rfl
  · intro h; exact saveCart_thrown_none _ h
  · intro h
    have hitems : (c.removeItem id).cart.items = c.items := by
      rw [removeItem_items, filter_absent _ _ h]
    simp [ShoppingCart.getTotalItems, ShoppingCart.getTotalPrice, hitems]

/-- Removing an id that is not in the cart `[p1]` changes nothing and raises nothing. -/
theorem removeItem_deletes_id_witness :
    (ShoppingCart.removeItem
      ⟨[⟨some "p1", some "Protein", .fin false 0, some "p1.png", 2⟩], ⟨[], false⟩⟩
      (some "p9")).thrown = none ∧
    (ShoppingCart.removeItem
      ⟨[⟨some "p1", some "Protein", .fin false 0, some "p1.png", 2⟩], ⟨[], false⟩⟩
      (some "p9")).cart.items = [⟨some "p1", some "Protein", .fin false 0, some "p1.png", 2⟩] :=
  ⟨(removeItem_deletes_id _ _).2.2.2.2.1 rfl,
   ((removeItem_deletes_id
      ⟨[⟨some "p1", some "Protein", .fin false 0, some "p1.png", 2⟩], ⟨[], false⟩⟩
      (some "p9")).2.2.2.2.2 (by simp)).1⟩

/-- Over a storage that refuses writes, `removeItem` of an id that is not in the cart `[p1]`
leaves the list as it was and throws `QuotaExceededError` to its caller: the call does raise
an error. -/
theorem removeItem_absent_id_throws :
    (ShoppingCart.removeItem
      ⟨[⟨some "p1", some "Protein", .fin false 0, some "p1.png", 2⟩], ⟨[], true⟩⟩
      (some "p9")).thrown = some .quotaExceededError ∧
    (ShoppingCart.removeItem
      ⟨[⟨some "p1", some "Protein", .fin false 0, some "p1.png", 2⟩], ⟨[], true⟩⟩
      (some "p9")).thrown ≠ none ∧
    (ShoppingCart.removeItem
      ⟨[⟨some "p1", some "Protein", .fin false 0, some "p1.png", 2⟩], ⟨[], true⟩⟩
      (some "p9")).cart.items = [⟨some "p1", some "Protein", .fin false 0, some "p1.png", 2⟩] := by
  have hsave := saveCart_thrown_some
    ⟨[⟨some "p1", some "Protein", .fin false 0, some "p1.png", 2⟩].filter
      (fun item => item.id ≠ some "p9"), ⟨[], true⟩⟩ rfl
  have hthrown : (ShoppingCart.removeItem
      ⟨[⟨some "p1", some "Protein", .fin false 0, some "p1.png", 2⟩], ⟨[], true⟩⟩
      (some "p9")).thrown = some .quotaExceededError := by
    unfold ShoppingCart.removeItem
    rw [hsave]
  refine ⟨hthrown, ?_, ?_⟩
  · rw [hthrown]; simp
  · rw [removeItem_items]; decide

/-- C9. The checkout handler on a non-empty cart sets the item list to empty and saves it:
the cart afterwards has an empty item list, `getTotalItems()` is 0 and `getTotalPrice()` is 0. -/
theorem checkout_empties (c : ShoppingCart) (h : c.items ≠ []) :
    c.checkout = ShoppingCart.saveCart { c with items := [] } ∧
    c.checkout.cart.items = [] ∧ c.checkout.cart.getTotalItems = 0 ∧
      c.checkout.cart.getTotalPrice = F64.zero := by
  have hitems := checkout_items c
  have hlen : c.items.length > 0 := List.length_pos.mpr h
  refine ⟨by simp [ShoppingCart.checkout, hlen], ?_⟩
  simp [ShoppingCart.getTotalItems, ShoppingCart.getTotalPrice, hitems]

/-- Checking out the cart `[p1 x 2]` empties it. -/
theorem checkout_empties_witness :
    (ShoppingCart.checkout
      ⟨[⟨some "p1", some "Protein", .fin false 0, some "p1.png", 2⟩], ⟨[], false⟩⟩).cart.items
      = [] :=
  (checkout_empties ⟨[⟨some "p1", some "Protein", .fin false 0, some "p1.png", 2⟩], ⟨[], false⟩⟩
    (by simp)).2.1

theorem bumpFirst_sum (id : Option String) (items : List Item) (h : ∃ x ∈ items, x.id = id) :
    ((bumpFirst id items).map (fun i => i.quantity)).sum =
      (items.map (fun i => i.quantity)).sum + 1 := by
  induction items with
  | nil => simp at h
  | cons y ys ih =>
    unfold bumpFirst
    split
    · simp; omega
    · rename_i hy
      obtain ⟨x, hx, hxid⟩ := h
      have hx2 : x ∈ ys := by
        rcases List.mem_cons.mp hx with rfl | hx2
        · exact absurd hxid hy
        · exact hx2
      simp [ih ⟨x, hx2, hxid⟩]; omega

theorem addToItems_sum (items : List Item) (p : Product) :
    ((addToItems items p).map (fun i => i.quantity)).sum =
      (items.map (fun i => i.quantity)).sum + 1 := by
  by_cases h : ∃ x ∈ items, x.id = p.id
  · rw [addToItems_existing _ _ h, bumpFirst_sum _ _ h]
  · have h2 : ∀ x ∈ items, x.id ≠ p.id := fun x hx hxid => h ⟨x, hx, hxid⟩
    rw [addToItems_fresh _ _ h2]; simp

/-- C8, as the code has it. `addItem` validates nothing and never rejects a product: for every
cart and every product, also one whose id is missing or empty or whose price is not a
non-negative finite number, the call changes the item list (one quantity grows by one or one
item is appended, so `getTotalItems()` grows by exactly 1), the only error it can raise is
the one of the storage write, and it raises none when the storage accepts the write. -/
theorem addItem_never_rejects (c : ShoppingCart) (p : Product) :
    (c.addItem p).cart.items ≠ c.items ∧
    (c.addItem p).cart.getTotalItems = c.getTotalItems + 1 ∧
    ((c.addItem p).thrown = none ∨ (c.addItem p).thrown = some .quotaExceededError) ∧
    (c.storage.refusesWrites = false → (c.addItem p).thrown = none) := by
  have hsum : (c.addItem p).cart.getTotalItems = c.getTotalItems + 1 := by
    rw [getTotalItems_eq_sum, getTotalItems_eq_sum, addItem_items, addToItems_sum]
  refine ⟨?_, hsum, ?_, fun h => saveCart_thrown_none _ h⟩
  · intro heq
    rw [getTotalItems_eq_sum, getTotalItems_eq_sum, heq] at hsum
    omega
  · cases hw : c.storage.refusesWrites
    · exact Or.inl (saveCart_thrown_none _ hw)
    · right
      have := saveCart_thrown_some { c with items := addToItems c.items p } hw
      simp [ShoppingCart.addItem, this]

/-- On the empty cart with a working storage, a product without id and with the price text
`abc` is stored (id `null`, price `NaN`), a product with empty id and price `-5` is stored at
the price `-5`, and neither call raises an error. -/
theorem addItem_accepts_malformed :
    (ShoppingCart.addItem ⟨[], ⟨[], false⟩⟩ ⟨none, some "x", some "abc", none⟩).thrown = none ∧
    (ShoppingCart.addItem ⟨[], ⟨[], false⟩⟩ ⟨none, some "x", some "abc", none⟩).cart.items =
      [⟨none, some "x", .nan, none, 1⟩] ∧
    (ShoppingCart.addItem ⟨[], ⟨[], false⟩⟩ ⟨some "", some "x", some "-5", none⟩).thrown = none ∧
    (ShoppingCart.addItem ⟨[], ⟨[], false⟩⟩ ⟨some "", some "x", some "-5", none⟩).cart.items =
      [⟨some "", some "x", .fin true (5 * F64.unit), none, 1⟩] := by
  refine ⟨saveCart_thrown_none _ rfl, ?_, saveCart_thrown_none _ rfl, ?_⟩
  · rw [addItem_items]; decide!
  · rw [addItem_items]; decide!

/-- C10, as the code has it. For every item list, storage content and call: when the storage
refuses the write, the in-memory item list after the call is exactly the list the same call
produces when the write succeeds, the storage is left as it was, and the call throws the
storage error to its caller (except a checkout of an empty cart, which writes nothing); with a
storage that accepts the write the call throws nothing. -/
theorem write_failure_propagates (items : List Item) (data : List (String × String))
    (call : Call) :
    ((ShoppingCart.mk items ⟨data, true⟩).call call).cart.items =
      ((ShoppingCart.mk items ⟨data, false⟩).call call).cart.items ∧
    ((ShoppingCart.mk items ⟨data, true⟩).call call).cart.storage = ⟨data, true⟩ ∧
    ((call = .checkout ∧ items = []) ∨
      ((ShoppingCart.mk items ⟨data, true⟩).call call).thrown = some .quotaExceededError) ∧
    ((ShoppingCart.mk items ⟨data, false⟩).call call).thrown = none := by
  cases call with
  | addItem p =>
    simp [ShoppingCart.call, ShoppingCart.addItem, ShoppingCart.saveCart, LocalStorage.setItem]
  | removeItem id =>
    simp [ShoppingCart.call, ShoppingCart.removeItem, ShoppingCart.saveCart,
      LocalStorage.setItem]
  | checkout =>
    cases items with
    | nil => simp [ShoppingCart.call, ShoppingCart.checkout]
    | cons x xs =>
      simp [ShoppingCart.call, ShoppingCart.checkout, ShoppingCart.saveCart,
        LocalStorage.setItem]

/-- With a storage that refuses writes, `addItem` on the empty cart and `removeItem` on a cart
of one item both throw `QuotaExceededError` to the caller. -/
theorem write_failure_throws :
    (ShoppingCart.addItem ⟨[], ⟨[], true⟩⟩
      ⟨some "p1", some "Protein", some "49.90", some "p1.png"⟩).thrown
      = some .quotaExceededError ∧
    (ShoppingCart.removeItem
      ⟨[⟨some "p1", some "Protein", .fin false 0, some "p1.png", 1⟩], ⟨[], true⟩⟩
      (some "p1")).thrown = some .quotaExceededError := by
  constructor
  · rw [ShoppingCart.addItem, saveCart_thrown_some _ rfl]
  · rw [ShoppingCart.removeItem, saveCart_thrown_some _ rfl]

/-! ## Rounding -/

theorem bitLenAux_le (fuel : Nat) : ∀ n k, n ≤ fuel → (bitLenAux fuel n ≤ k ↔ n < 2 ^ k) := by
  induction fuel with
  | zero =>
    intro n k h
    have : n = 0 := by omega
    subst this
    simp [bitLenAux]
  | succ fuel ih =>
    intro n k h
    unfold bitLenAux
    by_cases hn : n = 0
    · subst hn; simp
    · simp only [hn, if_false]
      cases k with
      | zero => simp; omega
      | succ k =>
        rw [Nat.add_le_add_iff_right, ih (n / 2) k (by omega), pow_succ]
        omega

theorem bitLen_le (n k : Nat) : bitLen n ≤ k ↔ n < 2 ^ k :=
  bitLenAux_le n n k (le_refl n)

theorem rne_le (p d : Nat) : rne p d ≤ p / d + 1 := by
  unfold rne
  simp only
  split
  · omega
  · split
    · omega
    · split <;> omega

theorem rne_of_dvd (p d : Nat) (hd : 0 < d) (h : d ∣ p) : rne p d * d = p := by
  unfold rne
  have hr : p % d = 0 := Nat.mod_eq_zero_of_dvd h
  simp only [hr, Nat.mul_zero, hd, if_true]
  exact Nat.div_mul_cancel h

theorem rne_scale (p d c : Nat) (hc : 0 < c) : rne (p * c) (d * c) = rne p d := by
  unfold rne
  simp only [Nat.mul_div_mul_right _ _ hc, Nat.mul_mod_mul_right]
  have h1 : (2 * (p % d * c) < d * c) ↔ (2 * (p % d) < d) := by
    rw [← Nat.mul_assoc]; exact Nat.mul_lt_mul_right hc
  have h2 : (d * c < 2 * (p % d * c)) ↔ (d < 2 * (p % d)) := by
    rw [← Nat.mul_assoc]; exact Nat.mul_lt_mul_right hc
  simp only [h1, h2]

theorem roundRat_scale (p q c : Nat) (hc : 0 < c) : roundRat (p * c) (q * c) = roundRat p q := by
  unfold roundRat
  simp only [Nat.mul_div_mul_right _ _ hc]
  rw [Nat.mul_right_comm q c, rne_scale _ _ _ hc]

/-- A magnitude with at most 53 significant bits is left alone by rounding. -/
theorem roundRat_of_dvd (m : Nat) (h : 2 ^ (bitLen m - 53) ∣ m) : roundRat m 1 = m := by
  unfold roundRat
  simp only [Nat.div_one, Nat.one_mul]
  exact rne_of_dvd _ _ (Nat.pos_pow_of_pos _ (by decide)) h

theorem roundRat_idem (p q : Nat) : roundRat (roundRat p q) 1 = roundRat p q := by
  apply roundRat_of_dvd
  unfold roundRat
  simp only
  generalize hsh : bitLen (p / q) - 53 = sh
  have hf : p / (q * 2 ^ sh) < 2 ^ 53 := by
    rw [← Nat.div_div_eq_div_mul]
    apply Nat.div_lt_of_lt_mul
    have : bitLen (p / q) ≤ sh + 53 := by omega
    rw [bitLen_le] at this
    rw [← pow_add]
    exact this
  have ht := rne_le p (q * 2 ^ sh)
  generalize rne p (q * 2 ^ sh) = t at ht ⊢
  have ht2 : t ≤ 2 ^ 53 := by omega
  rcases Nat.lt_or_ge t (2 ^ 53) with hlt | hge
  · have hR : t * 2 ^ sh < 2 ^ (sh + 53) := by
      rw [pow_add, Nat.mul_comm]
      exact Nat.mul_lt_mul_of_pos_left hlt (Nat.pos_pow_of_pos _ (by decide))
    have hL : bitLen (t * 2 ^ sh) ≤ sh + 53 := (bitLen_le _ _).2 hR
    exact Dvd.dvd.mul_left (pow_dvd_pow 2 (by omega)) t
  · have ht3 : t = 2 ^ 53 := by omega
    subst ht3
    rw [← pow_add]
    apply pow_dvd_pow
    have hL : bitLen (2 ^ (53 + sh)) ≤ 53 + sh + 1 :=
      (bitLen_le _ _).2 (Nat.pow_lt_pow_right (by decide) (by omega))
    omega
theorem roundRat_dec_scale (u s j : Nat) (e : Int) :
    roundRat (s * 10 ^ j * 10 ^ e.toNat * u) (10 ^ (-e).toNat) =
      roundRat (s * 10 ^ (e + j).toNat * u) (10 ^ (-(e + j)).toNat) := by
  rcases le_or_lt 0 e with he | he
  · -- both exponents are non-negative
    have h1 : (-e).toNat = 0 := by omega
    have h2 : (-(e + j)).toNat = 0 := by omega
    have h3 : (e + j).toNat = j + e.toNat := by omega
    rw [h1, h2, h3, pow_add]
    ring_nf
  · rcases le_or_lt 0 (e + j) with hej | hej
    · have h1 : e.toNat = 0 := by omega
      have h2 : (-(e + j)).toNat = 0 := by omega
      have h3 : j = (e + j).toNat + (-e).toNat := by omega
      rw [h1, h2]
      conv_lhs => rw [h3]
      simp only [pow_zero, Nat.mul_one, pow_add]
      have := roundRat_scale (s * 10 ^ (e + ↑j).toNat * u) 1 (10 ^ (-e).toNat)
        (Nat.pos_pow_of_pos _ (by decide))
      rw [Nat.one_mul] at this
      rw [← this]
      congr 1
      ring
    · have h1 : e.toNat = 0 := by omega
      have h2 : (e + j).toNat = 0 := by omega
      have h3 : (-e).toNat = (-(e + j)).toNat + j := by omega
      rw [h1, h2, h3]
      simp only [pow_zero, Nat.mul_one, pow_add]
      have := roundRat_scale (s * u) (10 ^ (-(e + ↑j)).toNat) (10 ^ j)
        (Nat.pos_pow_of_pos _ (by decide))
      rw [← this]
      congr 1
      ring

theorem decToF64_scale (neg : Bool) (s j : Nat) (e : Int) :
    decToF64 neg (s * 10 ^ j) e = decToF64 neg s (e + j) := by
  unfold decToF64
  rw [roundRat_dec_scale]


theorem ofMag_isDouble (neg : Bool) (p q : Nat) : (F64.ofMag neg (roundRat p q)).IsDouble = true := by
  unfold F64.ofMag
  split
  · rename_i h
    simp [F64.IsDouble, roundRat_idem, h]
  · rfl

theorem decToF64_isDouble (neg : Bool) (s : Nat) (e : Int) : (decToF64 neg s e).IsDouble = true :=
  ofMag_isDouble _ _ _

theorem ofNat_isDouble (n : Nat) : (F64.ofNat n).IsDouble = true := ofMag_isDouble _ _ _

theorem strUnsignedDecimal_isDouble (neg : Bool) (cs : List Char) :
    (strUnsignedDecimal neg cs).IsDouble = true := by
  unfold strUnsignedDecimal
  split
  · rfl
  · simp only
    split
    · split
      · rfl
      · exact decToF64_isDouble _ _ _
    · split
      · rfl
      · exact decToF64_isDouble _ _ _

theorem parseFloat_isDouble (v : Option String) : (parseFloat v).IsDouble = true := by
  unfold parseFloat
  split <;> exact strUnsignedDecimal_isDouble _ _

/-- The exact binary expansion of a double, as a decimal, rounds to the double. -/
theorem decToF64_exact (m : Nat) (h : roundRat m 1 = m) (hlt : m < F64.overflowMag) :
    decToF64 false (m * 5 ^ 1074) (-1074) = .fin false m := by
  unfold decToF64
  have e1 : ((-1074 : Int)).toNat = 0 := by decide
  have e2 : (-(-1074 : Int)).toNat = 1074 := by decide
  rw [e1, e2, pow_zero, Nat.mul_one]
  have hu : m * 5 ^ 1074 * F64.unit = m * 10 ^ 1074 := by
    unfold F64.unit
    rw [Nat.mul_assoc, ← Nat.mul_pow]
  rw [hu]
  have := roundRat_scale m 1 (10 ^ 1074) (Nat.pos_pow_of_pos _ (by decide))
  rw [Nat.one_mul] at this
  rw [this, h]
  simp [F64.ofMag, hlt]
/-! ## Decimal digits -/

theorem digitVal_ofNat (d : Nat) (h : d < 10) : digitVal (Char.ofNat (48 + d)) = d := by
  interval_cases d <;> rfl

theorem isDecDigit_ofNat (d : Nat) (h : d < 10) : isDecDigit (Char.ofNat (48 + d)) = true := by
  interval_cases d <;> rfl

theorem natOfDigits_append (a b : List Char) :
    natOfDigits (a ++ b) = natOfDigits a * 10 ^ b.length + natOfDigits b := by
  induction b using List.reverseRecOn with
  | nil => simp [natOfDigits]
  | append_singleton b c ih =>
    have h1 : natOfDigits (a ++ (b ++ [c])) = natOfDigits (a ++ b) * 10 + digitVal c := by
      simp [natOfDigits, List.foldl_append, ← List.append_assoc]
    have h2 : natOfDigits (b ++ [c]) = natOfDigits b * 10 + digitVal c := by
      simp [natOfDigits, List.foldl_append]
    rw [h1, h2, ih, List.length_append, List.length_singleton, pow_succ]
    ring

theorem natOfDigits_zeros (j : Nat) : natOfDigits (List.replicate j '0') = 0 := by
  induction j with
  | zero => rfl
  | succ j ih =>
    rw [List.replicate_succ']
    rw [natOfDigits_append, ih]
    rfl

theorem decDigitsAux_acc (fuel : Nat) : ∀ n acc,
    decDigitsAux fuel n acc = decDigitsAux fuel n [] ++ acc := by
  induction fuel with
  | zero => intro n acc; rfl
  | succ fuel ih =>
    intro n acc
    unfold decDigitsAux
    split
    · rfl
    · rw [ih _ (_ :: acc), ih _ [_]]
      simp

theorem natOfDigits_decDigitsAux (fuel : Nat) : ∀ n, n < fuel →
    natOfDigits (decDigitsAux fuel n []) = n := by
  induction fuel with
  | zero => intro n h; omega
  | succ fuel ih =>
    intro n h
    unfold decDigitsAux
    split
    · rename_i h10
      simp [natOfDigits, digitVal_ofNat n h10]
    · rw [decDigitsAux_acc, natOfDigits_append, ih _ (by omega)]
      simp [natOfDigits, digitVal_ofNat (n % 10) (Nat.mod_lt _ (by decide))]
      omega

theorem natOfDigits_decDigits (n : Nat) : natOfDigits (decDigits n) = n :=
  natOfDigits_decDigitsAux _ _ (Nat.lt_succ_self n)

theorem decDigitsAux_digits (fuel : Nat) : ∀ n acc, (∀ c ∈ acc, isDecDigit c = true) →
    ∀ c ∈ decDigitsAux fuel n acc, isDecDigit c = true := by
  induction fuel with
  | zero => intro n acc h; exact h
  | succ fuel ih =>
    intro n acc h
    unfold decDigitsAux
    split
    · rename_i h10
      intro c hc
      rcases List.mem_cons.mp hc with rfl | hc
      · exact isDecDigit_ofNat n h10
      · exact h c hc
    · apply ih
      intro c hc
      rcases List.mem_cons.mp hc with rfl | hc
      · exact isDecDigit_ofNat _ (Nat.mod_lt _ (by decide))
      · exact h c hc

theorem decDigits_digits (n : Nat) : ∀ c ∈ decDigits n, isDecDigit c = true :=
  decDigitsAux_digits _ _ _ (by simp)

theorem decDigitsAux_head (fuel : Nat) : ∀ n acc, n < fuel → 0 < n →
    ∃ d ds, decDigitsAux fuel n acc = d :: ds ∧ d ≠ '0' := by
  induction fuel with
  | zero => intro n acc h; omega
  | succ fuel ih =>
    intro n acc h hpos
    unfold decDigitsAux
    split
    · rename_i h10
      refine ⟨_, _, rfl, ?_⟩
      interval_cases n <;> decide
    · exact ih _ _ (by omega) (by omega)

theorem decDigits_head (n : Nat) (h : 0 < n) : ∃ d ds, decDigits n = d :: ds ∧ d ≠ '0' :=
  decDigitsAux_head _ _ _ (Nat.lt_succ_self n) h

theorem decDigits_ne_nil (n : Nat) : decDigits n ≠ [] := by
  unfold decDigits decDigitsAux
  split
  · simp
  · rw [decDigitsAux_acc]; simp

theorem spanDigits_append (ds rest : List Char) (h : ∀ c ∈ ds, isDecDigit c = true) :
    spanDigits (ds ++ rest) = (ds ++ (spanDigits rest).1, (spanDigits rest).2) := by
  induction ds with
  | nil => rfl
  | cons d ds ih =>
    have hd : isDecDigit d = true := h d (by simp)
    have := ih (fun c hc => h c (by simp [hc]))
    simp [spanDigits, hd, this]

theorem spanDigits_stop (ds rest : List Char) (h : ∀ c ∈ ds, isDecDigit c = true)
    (hr : noDigitHead rest = true) : spanDigits (ds ++ rest) = (ds, rest) := by
  have : spanDigits rest = ([], rest) := by
    cases rest with
    | nil => rfl
    | cons c cs =>
      have : isDecDigit c = false := by simpa [noDigitHead] using hr
      simp [spanDigits, this]
  rw [spanDigits_append _ _ h, this]; simp

theorem numEnd_noDigitHead (rest : List Char) (h : numEnd rest = true) :
    noDigitHead rest = true := by
  cases rest with
  | nil => rfl
  | cons c cs =>
    simp only [numEnd, Bool.and_eq_true] at h
    simpa [noDigitHead] using h.1.1.1
/-! ## Reading back a printed number -/

theorem parseExponent_end (rest : List Char) (h : numEnd rest = true) :
    JSON.parseExponent rest = some (0, rest) := by
  cases rest with
  | nil => rfl
  | cons c cs =>
    simp only [numEnd, Bool.and_eq_true, bne_iff_ne, ne_eq] at h
    simp [JSON.parseExponent, h.1.2, h.2]

theorem parseExponent_plus (ex rest : List Char) (hex : ∀ c ∈ ex, isDecDigit c = true)
    (hne : ex ≠ []) (h : numEnd rest = true) :
    JSON.parseExponent ('e' :: '+' :: (ex ++ rest)) = some ((natOfDigits ex : Int), rest) := by
  have := spanDigits_stop ex rest hex (numEnd_noDigitHead _ h)
  simp [JSON.parseExponent, this, hne]

theorem parseExponent_minus (ex rest : List Char) (hex : ∀ c ∈ ex, isDecDigit c = true)
    (hne : ex ≠ []) (h : numEnd rest = true) :
    JSON.parseExponent ('e' :: '-' :: (ex ++ rest)) = some (-(natOfDigits ex : Int), rest) := by
  have := spanDigits_stop ex rest hex (numEnd_noDigitHead _ h)
  simp [JSON.parseExponent, this, hne]

theorem parseUnsigned_split (neg : Bool) (d : Char) (ds tail : List Char)
    (hd : ∀ c ∈ d :: ds, isDecDigit c = true) (hz : d ≠ '0' ∨ ds = [])
    (ht : noDigitHead tail = true) :
    JSON.parseUnsigned neg (d :: ds ++ tail) = JSON.parseFraction neg (d :: ds) tail := by
  unfold JSON.parseUnsigned
  rw [spanDigits_stop _ _ hd ht]
  simp only
  have : ¬ (d = '0' ∧ ds ≠ []) := by
    rintro ⟨h1, h2⟩
    rcases hz with hz | hz
    · exact hz h1
    · exact h2 hz
  simp [this]

theorem parseFraction_noDot (neg : Bool) (ip tail : List Char) (ex : Int) (rest : List Char)
    (hdot : ∀ r, tail ≠ '.' :: r) (h : JSON.parseExponent tail = some (ex, rest)) :
    JSON.parseFraction neg ip tail = some (decToF64 neg (natOfDigits ip) ex, rest) := by
  unfold JSON.parseFraction
  split
  · rename_i r; exact absurd rfl (hdot r)
  · simp [h]

theorem parseFraction_dot (neg : Bool) (ip fp tail : List Char) (ex : Int) (rest : List Char)
    (hfp : ∀ c ∈ fp, isDecDigit c = true) (hne : fp ≠ []) (ht : noDigitHead tail = true)
    (h : JSON.parseExponent tail = some (ex, rest)) :
    JSON.parseFraction neg ip ('.' :: (fp ++ tail)) =
      some (decToF64 neg (natOfDigits (ip ++ fp)) (ex - (fp.length : Int)), rest) := by
  unfold JSON.parseFraction
  simp [spanDigits_stop _ _ hfp ht, hne, h]
theorem roundRat_zero (q : Nat) : roundRat 0 q = 0 := by
  unfold roundRat rne
  simp [bitLen, bitLenAux]

theorem decToF64_zero (neg : Bool) (e : Int) : decToF64 neg 0 e = .fin neg 0 := by
  unfold decToF64
  simp [roundRat_zero, F64.ofMag, F64.overflowMag]

theorem decToF64_neg (s m : Nat) (e : Int) (h : decToF64 false s e = .fin false m) (neg : Bool) :
    decToF64 neg s e = .fin neg m := by
  unfold decToF64 F64.ofMag at h ⊢
  split at h
  · rename_i hlt
    simp only [F64.fin.injEq, true_and] at h
    rw [h] at hlt
    simp [hlt, h]
  · simp at h

theorem shortestAux_denotes (m : Nat) (n0 : Int) (fuel : Nat) : ∀ k c,
    shortestAux m n0 fuel k = some c → denotes m c = true := by
  induction fuel with
  | zero => intro k c h; simp [shortestAux] at h
  | succ fuel ih =>
    intro k c h
    unfold shortestAux at h
    simp only at h
    split at h
    · rename_i hlo
      split at h
      · rename_i hhi
        split at h
        · cases h; exact hlo
        · split at h
          · cases h; exact hhi
          · split at h
            · cases h; exact hlo
            · cases h; exact hhi
      · cases h; exact hlo
    · split at h
      · rename_i hhi
        cases h; exact hhi
      · exact ih _ _ h

theorem shortestDec_spec (m : Nat) (hm : 0 < m) (hd : (F64.fin false m).IsDouble = true) :
    decToF64 false (shortestDec m).1 (shortestDec m).2 = .fin false m ∧ 0 < (shortestDec m).1 := by
  have key : decToF64 false (shortestDec m).1 (shortestDec m).2 = .fin false m := by
    unfold shortestDec
    simp only
    split
    · rename_i c hc
      have := shortestAux_denotes _ _ _ _ _ hc
      simpa [denotes] using this
    · simp only [F64.IsDouble, Bool.and_eq_true, decide_eq_true_eq] at hd
      exact decToF64_exact m hd.1 hd.2
  refine ⟨key, ?_⟩
  rcases Nat.eq_zero_or_pos (shortestDec m).1 with h0 | hpos
  · rw [h0, decToF64_zero] at key
    simp only [F64.fin.injEq, true_and] at key
    omega
  · exact hpos
theorem numEnd_not_dot (rest : List Char) (h : numEnd rest = true) : ∀ r, rest ≠ '.' :: r := by
  intro r hr
  subst hr
  simp [numEnd] at h

theorem natOfDigits_zero_cons (ds : List Char) : natOfDigits ('0' :: ds) = natOfDigits ds := by
  simp [natOfDigits, digitVal]

theorem natOfDigits_zeros_append (j : Nat) (ds : List Char) :
    natOfDigits (List.replicate j '0' ++ ds) = natOfDigits ds := by
  rw [natOfDigits_append, natOfDigits_zeros]; simp

theorem parseUnsigned_formatDec (neg : Bool) (s : Nat) (e : Int) (rest : List Char)
    (hs : 0 < s) (hr : numEnd rest = true) :
    JSON.parseUnsigned neg (formatDec s e ++ rest) = some (decToF64 neg s e, rest) := by
  obtain ⟨d, ds, hds, hd0⟩ := decDigits_head s hs
  have hdig := decDigits_digits s
  have hval := natOfDigits_decDigits s
  rw [hds] at hdig hval
  have hdig' : ∀ c ∈ ds, isDecDigit c = true := fun c hc => hdig c (by simp [hc])
  have hzeros : ∀ j, ∀ c ∈ List.replicate j '0', isDecDigit c = true := by
    intro j c hc
    rw [List.eq_of_mem_replicate hc]; rfl
  unfold formatDec
  simp only [hds, List.length_cons]
  split
  · -- plain digits, then zeros
    rename_i h
    have hcons : d :: ds ++ List.replicate (e + ↑(ds.length + 1) - ↑(ds.length + 1)).toNat '0' ++ rest
        = d :: (ds ++ List.replicate e.toNat '0') ++ rest := by
      simp
    rw [hcons, parseUnsigned_split neg d _ rest _ (Or.inl hd0) (numEnd_noDigitHead _ hr)]
    · rw [parseFraction_noDot neg _ rest 0 rest (numEnd_not_dot _ hr) (parseExponent_end _ hr)]
      have : natOfDigits (d :: (ds ++ List.replicate e.toNat '0')) = s * 10 ^ e.toNat := by
        have := natOfDigits_append (d :: ds) (List.replicate e.toNat '0')
        rw [natOfDigits_zeros, hval] at this
        simpa using this
      rw [this, decToF64_scale]
      congr 3
      omega
    · intro c hc
      rcases List.mem_cons.mp hc with rfl | hc
      · exact hdig _ (by simp)
      · rcases List.mem_append.mp hc with hc | hc
        · exact hdig' c hc
        · exact hzeros _ c hc
  · rename_i h1
    split
    · -- decimal point inside the digits
      rename_i h
      obtain ⟨n, hn⟩ : ∃ n : Nat, (e + ↑(ds.length + 1)).toNat = n + 1 :=
        ⟨(e + ↑(ds.length + 1)).toNat - 1, by omega⟩
      have hnlen : n < ds.length := by omega
      have hcons : List.take (e + ↑(ds.length + 1)).toNat (d :: ds) ++
          '.' :: List.drop (e + ↑(ds.length + 1)).toNat (d :: ds) ++ rest
          = d :: List.take n ds ++ '.' :: (List.drop n ds ++ rest) := by
        rw [hn]; simp
      rw [hcons, parseUnsigned_split neg d _ _ _ (Or.inl hd0) (by rfl)]
      · rw [parseFraction_dot neg _ (List.drop n ds) rest 0 rest _ _ (numEnd_noDigitHead _ hr)
          (parseExponent_end _ hr)]
        · have : d :: List.take n ds ++ List.drop n ds = d :: ds := by simp
          rw [this, hval]
          congr 3
          rw [List.length_drop]
          omega
        · intro c hc
          exact hdig' c (List.mem_of_mem_drop hc)
        · intro hnil
          have := congrArg List.length hnil
          rw [List.length_drop] at this
          simp at this
          omega
      · intro c hc
        rcases List.mem_cons.mp hc with rfl | hc
        · exact hdig _ (by simp)
        · exact hdig' c (List.mem_of_mem_take hc)
    · rename_i h2
      split
      · -- zeros between the decimal point and the digits
        rename_i h
        have hcons : '0' :: '.' :: (List.replicate (-(e + ↑(ds.length + 1))).toNat '0' ++ d :: ds)
            ++ rest = '0' :: [] ++
              '.' :: ((List.replicate (-(e + ↑(ds.length + 1))).toNat '0' ++ d :: ds) ++ rest) := by
          simp
        rw [hcons, parseUnsigned_split neg '0' [] _ (by simp; rfl) (Or.inr rfl) (by rfl)]
        rw [parseFraction_dot neg _ _ rest 0 rest _ (by simp) (numEnd_noDigitHead _ hr)
          (parseExponent_end _ hr)]
        · have : natOfDigits (['0'] ++ (List.replicate (-(e + ↑(ds.length + 1))).toNat '0' ++ d :: ds))
              = s := by
            rw [List.singleton_append, natOfDigits_zero_cons, natOfDigits_zeros_append, hval]
          rw [this]
          congr 3
          simp only [List.length_append, List.length_replicate, List.length_cons]
          omega
        · intro c hc
          rcases List.mem_append.mp hc with hc | hc
          · exact hzeros _ c hc
          · exact hdig c hc
      · -- exponent form
        rename_i h3
        have hexd : ∀ j, ∀ c ∈ decDigits j, isDecDigit c = true := decDigits_digits
        split
        · -- one digit
          rename_i hnil
          subst hnil
          split
          · rename_i hpos
            show JSON.parseUnsigned neg (d :: [] ++ 'e' :: '+' :: (decDigits _ ++ rest)) = _
            rw [parseUnsigned_split neg d [] _ hdig (Or.inr rfl) (by rfl),
              parseFraction_noDot neg _ _ _ rest (by simp)
                (parseExponent_plus _ rest (hexd _) (decDigits_ne_nil _) hr),
              natOfDigits_decDigits, hval]
            congr 3
            simp only [List.length_nil] at *
            omega
          · rename_i hneg
            show JSON.parseUnsigned neg (d :: [] ++ 'e' :: '-' :: (decDigits _ ++ rest)) = _
            rw [parseUnsigned_split neg d [] _ hdig (Or.inr rfl) (by rfl),
              parseFraction_noDot neg _ _ _ rest (by simp)
                (parseExponent_minus _ rest (hexd _) (decDigits_ne_nil _) hr),
              natOfDigits_decDigits, hval]
            congr 3
            simp only [List.length_nil] at *
            omega
        · -- several digits
          rename_i hne
          split
          · rename_i hpos
            have hcons : d :: '.' :: (ds ++ 'e' :: '+' ::
                decDigits (e + ↑(ds.length + 1) - 1).toNat) ++ rest
                = d :: [] ++ '.' :: (ds ++ 'e' :: '+' ::
                  (decDigits (e + ↑(ds.length + 1) - 1).toNat ++ rest)) := by simp
            rw [hcons, parseUnsigned_split neg d [] _ (by simpa using hdig d (by simp))
                (Or.inr rfl) (by rfl),
              parseFraction_dot neg _ ds _ _ rest hdig' hne (by rfl)
                (parseExponent_plus _ rest (hexd _) (decDigits_ne_nil _) hr),
              natOfDigits_decDigits]
            rw [List.singleton_append, hval]
            congr 3
            omega
          · rename_i hneg
            have hcons : d :: '.' :: (ds ++ 'e' :: '-' ::
                decDigits (1 - (e + ↑(ds.length + 1))).toNat) ++ rest
                = d :: [] ++ '.' :: (ds ++ 'e' :: '-' ::
                  (decDigits (1 - (e + ↑(ds.length + 1))).toNat ++ rest)) := by simp
            rw [hcons, parseUnsigned_split neg d [] _ (by simpa using hdig d (by simp))
                (Or.inr rfl) (by rfl),
              parseFraction_dot neg _ ds _ _ rest hdig' hne (by rfl)
                (parseExponent_minus _ rest (hexd _) (decDigits_ne_nil _) hr),
              natOfDigits_decDigits]
            rw [List.singleton_append, hval]
            congr 3
            omega
theorem formatDec_head (s : Nat) (e : Int) (hs : 0 < s) :
    ∃ d tl, formatDec s e = d :: tl ∧ isDecDigit d = true := by
  obtain ⟨d, ds, hds, _⟩ := decDigits_head s hs
  have hd : isDecDigit d = true := decDigits_digits s d (by simp [hds])
  unfold formatDec
  simp only [hds, List.length_cons]
  split
  · exact ⟨d, _, rfl, hd⟩
  · split
    · rename_i h
      obtain ⟨n, hn⟩ : ∃ n : Nat, (e + ↑(ds.length + 1)).toNat = n + 1 :=
        ⟨(e + ↑(ds.length + 1)).toNat - 1, by omega⟩
      rw [hn]
      exact ⟨d, _, rfl, hd⟩
    · split
      · exact ⟨'0', _, rfl, rfl⟩
      · split
        · exact ⟨d, _, rfl, hd⟩
        · exact ⟨d, _, rfl, hd⟩

theorem parseNumber_digit (d : Char) (tl : List Char) (hd : isDecDigit d = true) :
    JSON.parseNumber (d :: tl) = JSON.parseUnsigned false (d :: tl) := by
  unfold JSON.parseNumber
  split
  · rename_i cs heq
    simp only [List.cons.injEq] at heq
    rw [heq.1] at hd
    exact absurd hd (by decide)
  · rfl

/-- A number that `JSON.stringify` writes as itself: finite, and not negative zero. -/
theorem parseNumber_renderNumber (neg : Bool) (m : Nat) (rest : List Char)
    (hd : (F64.fin neg m).IsDouble = true) (hnz : ¬ (neg = true ∧ m = 0))
    (hr : numEnd rest = true) :
    JSON.parseNumber (JSON.renderNumber (.fin neg m) ++ rest) = some (.fin neg m, rest) ∧
    ∃ c tl, JSON.renderNumber (.fin neg m) = c :: tl ∧ (c = '-' ∨ isDecDigit c = true) := by
  unfold JSON.renderNumber numberToString
  simp only
  by_cases hm : m = 0
  · subst hm
    have hneg : neg = false := by
      cases neg
      · rfl
      · exact absurd ⟨rfl, rfl⟩ hnz
    subst hneg
    refine ⟨?_, '0', [], by simp, Or.inr rfl⟩
    simp only [if_true]
    show JSON.parseNumber ('0' :: ([] ++ rest)) = _
    rw [parseNumber_digit '0' _ (by rfl)]
    show JSON.parseUnsigned false ('0' :: [] ++ rest) = _
    rw [parseUnsigned_split false '0' [] rest (by simp; rfl)
      (Or.inr rfl) (numEnd_noDigitHead _ hr),
      parseFraction_noDot false _ rest 0 rest (numEnd_not_dot _ hr) (parseExponent_end _ hr)]
    simp [natOfDigits, digitVal, decToF64_zero]
  · simp only [hm, if_false]
    have hpos : 0 < m := Nat.pos_of_ne_zero hm
    have hd' : (F64.fin false m).IsDouble = true := by simpa [F64.IsDouble] using hd
    obtain ⟨hval, hs⟩ := shortestDec_spec m hpos hd'
    obtain ⟨c, tl, hfmt, hc⟩ := formatDec_head (shortestDec m).1 (shortestDec m).2 hs
    have hparse := parseUnsigned_formatDec neg _ (shortestDec m).2 rest hs hr
    rw [decToF64_neg _ _ _ hval neg] at hparse
    cases neg
    · simp only [Bool.false_eq_true, if_false]
      refine ⟨?_, c, tl, hfmt, Or.inr hc⟩
      rw [hfmt, List.cons_append, parseNumber_digit _ _ hc, ← List.cons_append, ← hfmt]
      exact hparse
    · simp only [if_true]
      exact ⟨hparse, '-', _, rfl, Or.inl rfl⟩

theorem parseValue_number (fuel : Nat) (c : Char) (tl : List Char)
    (hc : c = '-' ∨ isDecDigit c = true) :
    JSON.parseValue (fuel + 1) (c :: tl) =
      (JSON.parseNumber (c :: tl)).map (fun p => (.num p.1, p.2)) := by
  have hn : c ≠ 'n' := by rintro rfl; rcases hc with h | h <;> exact absurd h (by decide)
  have ht : c ≠ 't' := by rintro rfl; rcases hc with h | h <;> exact absurd h (by decide)
  have hf : c ≠ 'f' := by rintro rfl; rcases hc with h | h <;> exact absurd h (by decide)
  have hq : c ≠ '"' := by rintro rfl; rcases hc with h | h <;> exact absurd h (by decide)
  have hb : c ≠ '[' := by rintro rfl; rcases hc with h | h <;> exact absurd h (by decide)
  have ho : c ≠ '{' := by rintro rfl; rcases hc with h | h <;> exact absurd h (by decide)
  unfold JSON.parseValue
  split
  all_goals first
    | rfl
    | (rename_i heq; simp only [List.cons.injEq] at heq; 
       first
        | exact absurd heq.1 hn
        | exact absurd heq.1 ht
        | exact absurd heq.1 hf
        | exact absurd heq.1 hq
        | exact absurd heq.1 hb
        | exact absurd heq.1 ho)
/-! ## Reading back a printed string -/

theorem parseStringBody_control (n : Nat) (hn : n < 32) (X : List Char) :
    JSON.parseStringBody none (quoteJSONChar (Char.ofNat n) ++ X) =
      JSON.prepend [Char.ofNat n] (JSON.parseStringBody none X) := by
  interval_cases n <;> rfl

theorem parseStringBody_char (c : Char) (X : List Char) :
    JSON.parseStringBody none (quoteJSONChar c ++ X) =
      JSON.prepend [c] (JSON.parseStringBody none X) := by
  by_cases h32 : c.toNat < 32
  · have := parseStringBody_control c.toNat h32 X
    rwa [Char.ofNat_toNat] at this
  · by_cases hq : c = '"'
    · subst hq; rfl
    · by_cases hb : c = '\\'
      · subst hb; rfl
      · have h8 : c.toNat ≠ 8 := by omega
        have h9 : c.toNat ≠ 9 := by omega
        have h10 : c.toNat ≠ 10 := by omega
        have h12 : c.toNat ≠ 12 := by omega
        have h13 : c.toNat ≠ 13 := by omega
        simp only [quoteJSONChar, hq, hb, h8, h9, h10, h12, h13, h32, if_false,
          List.singleton_append]
        conv_lhs => unfold JSON.parseStringBody
        split
        · rename_i heq; simp at heq
        · rename_i heq
          simp only [List.cons.injEq] at heq
          exact absurd heq.1 hq
        · rename_i heq
          simp only [List.cons.injEq] at heq
          exact absurd heq.1 hb
        · rename_i heq
          simp only [List.cons.injEq] at heq
          exact absurd heq.1 hb
        · rename_i heq
          simp only [List.cons.injEq] at heq
          obtain ⟨rfl, rfl⟩ := heq
          simp [h32, hb, JSON.flush]

theorem parseStringBody_quoteJSONBody (s rest : List Char) :
    JSON.parseStringBody none (quoteJSONBody s ++ '"' :: rest) = some (s, rest) := by
  induction s with
  | nil => rfl
  | cons c cs ih =>
    simp only [quoteJSONBody, List.append_assoc]
    rw [parseStringBody_char, ih]
    rfl

theorem parseValue_string (fuel : Nat) (s : String) (rest : List Char) :
    JSON.parseValue (fuel + 1) (quoteJSONString s ++ rest) = some (.str s, rest) := by
  unfold quoteJSONString
  simp only [List.cons_append, List.append_assoc, List.singleton_append]
  unfold JSON.parseValue
  simp [parseStringBody_quoteJSONBody]
/-! ## Reading back a printed cart -/

theorem skipWs_cons (c : Char) (tl : List Char) (h : JSON.isWs c = false) :
    JSON.skipWs (c :: tl) = c :: tl := by
  simp [JSON.skipWs, h]

theorem isWs_of_digit_or_minus (c : Char) (h : c = '-' ∨ isDecDigit c = true) :
    JSON.isWs c = false := by
  rcases h with rfl | h
  · rfl
  · simp only [isDecDigit, Bool.and_eq_true, decide_eq_true_eq] at h
    have h1 : c ≠ ' ' := by
      rintro rfl
      exact absurd h.1 (by decide)
    simp only [JSON.isWs, Bool.or_eq_false_iff, decide_eq_false_iff_not]
    refine ⟨⟨⟨h1, ?_⟩, ?_⟩, ?_⟩ <;> omega

theorem readsBack_attr (fuel : Nat) (a : Option String) (tail : List Char) :
    ReadsBack (fuel + 1) (JSVal.ofAttr a) tail := by
  cases a with
  | none => exact ⟨rfl, rfl⟩
  | some s =>
    refine ⟨?_, ?_⟩
    · simp only [JSVal.ofAttr, JSON.render]
      exact parseValue_string fuel s tail
    · simp only [JSVal.ofAttr, JSON.render, quoteJSONString, List.cons_append]
      exact skipWs_cons _ _ rfl

theorem readsBack_num (fuel : Nat) (neg : Bool) (m : Nat) (tail : List Char)
    (hd : (F64.fin neg m).IsDouble = true) (hnz : ¬ (neg = true ∧ m = 0))
    (hr : numEnd tail = true) :
    ReadsBack (fuel + 1) (.num (.fin neg m)) tail := by
  obtain ⟨hparse, c, tl, hrender, hc⟩ := parseNumber_renderNumber neg m tail hd hnz hr
  refine ⟨?_, ?_⟩
  · simp only [JSON.render]
    have h1 : JSON.renderNumber (F64.fin neg m) ++ tail = c :: (tl ++ tail) := by
      rw [hrender]; rfl
    rw [h1, parseValue_number fuel c _ hc, ← h1, hparse]
    rfl
  · simp only [JSON.render, hrender, List.cons_append]
    exact skipWs_cons _ _ (isWs_of_digit_or_minus c hc)

theorem parseMember_step (fuel : Nat) (k : String) (v : JSVal) (tail : List Char)
    (h : ReadsBack (fuel + 1) v tail) :
    JSON.parseMember (fuel + 2) (quoteJSONString k ++ ':' :: (JSON.render v ++ tail)) =
      (JSON.parseMembers (fuel + 1) tail).map (fun p => ((k, v) :: p.1, p.2)) := by
  unfold quoteJSONString
  simp only [List.cons_append, List.append_assoc, List.singleton_append, List.nil_append]
  unfold JSON.parseMember
  simp only [parseStringBody_quoteJSONBody]
  rw [skipWs_cons _ _ (by rfl)]
  simp only [h.2, h.1]

theorem parseMembers_comma (fuel : Nat) (k : String) (X : List Char) :
    JSON.parseMembers (fuel + 1) (',' :: (quoteJSONString k ++ X)) =
      JSON.parseMember fuel (quoteJSONString k ++ X) := by
  unfold JSON.parseMembers
  rw [skipWs_cons _ _ (by rfl)]
  simp only [quoteJSONString, List.cons_append]
  rw [skipWs_cons _ _ (by rfl)]

theorem parseMembers_close (fuel : Nat) (rest : List Char) :
    JSON.parseMembers (fuel + 1) ('}' :: rest) = some ([], rest) := by
  unfold JSON.parseMembers
  rw [skipWs_cons _ _ (by rfl)]
  rfl

theorem mkProps_item (a b c d e : JSVal) :
    JSVal.mkProps [("id", a), ("name", b), ("price", c), ("image", d), ("quantity", e)] =
      [("id", a), ("name", b), ("price", c), ("image", d), ("quantity", e)] := by
  simp [JSVal.mkProps, JSVal.setProp]

theorem parseValue_obj (fuel : Nat) (k : String) (X : List Char) :
    JSON.parseValue (fuel + 1) ('{' :: (quoteJSONString k ++ X)) =
      (JSON.parseMember fuel (quoteJSONString k ++ X)).map
        (fun p => (.obj (JSVal.mkProps p.1), p.2)) := by
  conv_lhs => unfold JSON.parseValue
  simp only [quoteJSONString, List.cons_append]
  rw [skipWs_cons _ _ (by rfl)]
  rfl

theorem parseValue_obj5 (fuel : Nat) (k1 k2 k3 k4 k5 : String) (v1 v2 v3 v4 v5 : JSVal)
    (rest : List Char)
    (h5 : ReadsBack (fuel + 1) v5 ('}' :: rest))
    (h4 : ReadsBack (fuel + 3) v4
      (',' :: (quoteJSONString k5 ++ ':' :: (JSON.render v5 ++ '}' :: rest))))
    (h3 : ReadsBack (fuel + 5) v3
      (',' :: (quoteJSONString k4 ++ ':' :: (JSON.render v4 ++
        ',' :: (quoteJSONString k5 ++ ':' :: (JSON.render v5 ++ '}' :: rest))))))
    (h2 : ReadsBack (fuel + 7) v2
      (',' :: (quoteJSONString k3 ++ ':' :: (JSON.render v3 ++
        ',' :: (quoteJSONString k4 ++ ':' :: (JSON.render v4 ++
          ',' :: (quoteJSONString k5 ++ ':' :: (JSON.render v5 ++ '}' :: rest))))))))
    (h1 : ReadsBack (fuel + 9) v1
      (',' :: (quoteJSONString k2 ++ ':' :: (JSON.render v2 ++
        ',' :: (quoteJSONString k3 ++ ':' :: (JSON.render v3 ++
          ',' :: (quoteJSONString k4 ++ ':' :: (JSON.render v4 ++
            ',' :: (quoteJSONString k5 ++ ':' :: (JSON.render v5 ++ '}' :: rest)))))))))) :
    JSON.parseValue (fuel + 11)
        (JSON.render (.obj [(k1, v1), (k2, v2), (k3, v3), (k4, v4), (k5, v5)]) ++ rest) =
      some (.obj (JSVal.mkProps [(k1, v1), (k2, v2), (k3, v3), (k4, v4), (k5, v5)]), rest) := by
  simp only [JSON.render, JSON.renderProps, List.cons_append, List.append_assoc,
    List.nil_append]
  rw [parseValue_obj, parseMember_step (fuel + 8) k1 v1 _ h1,
    parseMembers_comma, parseMember_step (fuel + 6) k2 v2 _ h2,
    parseMembers_comma, parseMember_step (fuel + 4) k3 v3 _ h3,
    parseMembers_comma, parseMember_step (fuel + 2) k4 v4 _ h4,
    parseMembers_comma, parseMember_step fuel k5 v5 _ h5,
    parseMembers_close]
  rfl
theorem bitLen_mul_pow (q k j : Nat) (h : q < 2 ^ k) : bitLen (q * 2 ^ j) ≤ k + j := by
  rw [bitLen_le, pow_add]
  exact Nat.mul_lt_mul_of_pos_right h (Nat.pos_pow_of_pos _ (by decide))

theorem ofNat_small (q : Nat) (h : q < 2 ^ 53) : F64.ofNat q = .fin false (q * F64.unit) := by
  unfold F64.ofNat
  have hL : bitLen (q * F64.unit) ≤ 53 + 1074 := bitLen_mul_pow q 53 1074 h
  have hr : roundRat (q * F64.unit) 1 = q * F64.unit := by
    apply roundRat_of_dvd
    exact Dvd.dvd.mul_left (pow_dvd_pow 2 (by omega)) q
  rw [hr]
  have hlt : q * F64.unit < F64.overflowMag := by
    have : F64.overflowMag = 2 ^ 1024 * F64.unit := by
      unfold F64.overflowMag F64.unit
      rw [← pow_add]
    rw [this]
    apply Nat.mul_lt_mul_of_pos_right _ (Nat.pos_pow_of_pos _ (by decide))
    exact lt_trans h (Nat.pow_lt_pow_right (by decide) (by decide))
  simp [F64.ofMag, hlt]

theorem readsBack_price (fuel : Nat) (x : F64) (tail : List Char)
    (hd : x.IsDouble = true) (hx : x.jsonExact = true) (hr : numEnd tail = true) :
    ReadsBack (fuel + 1) (.num x) tail := by
  cases x with
  | nan => simp [F64.jsonExact] at hx
  | inf neg => simp [F64.jsonExact] at hx
  | fin neg m =>
    apply readsBack_num fuel neg m tail hd _ hr
    rintro ⟨rfl, rfl⟩
    simp [F64.jsonExact] at hx

theorem readsBack_quantity (fuel : Nat) (q : Nat) (tail : List Char) (hq : q < 2 ^ 53)
    (hr : numEnd tail = true) : ReadsBack (fuel + 1) (.num (F64.ofNat q)) tail := by
  apply readsBack_price fuel _ tail (ofNat_isDouble q) _ hr
  rw [ofNat_small q hq]
  rfl

theorem parseValue_item (fuel : Nat) (i : Item) (rest : List Char)
    (h : i.persistable = true) :
    JSON.parseValue (fuel + 11) (JSON.render i.toJS ++ rest) = some (i.toJS, rest) := by
  simp only [Item.persistable, Bool.and_eq_true, decide_eq_true_eq] at h
  obtain ⟨⟨hd, hx⟩, hq⟩ := h
  unfold Item.toJS
  rw [parseValue_obj5 fuel _ _ _ _ _ _ _ _ _ _ rest
    (readsBack_quantity _ _ _ hq rfl)
    (readsBack_attr _ _ _)
    (readsBack_price _ _ _ hd hx rfl)
    (readsBack_attr _ _ _)
    (readsBack_attr _ _ _), mkProps_item]

theorem skipWs_item (i : Item) (X : List Char) :
    JSON.skipWs (JSON.render i.toJS ++ X) = JSON.render i.toJS ++ X := by
  unfold Item.toJS
  simp only [JSON.render, List.cons_append]
  exact skipWs_cons _ _ (by rfl)

theorem parseElems_items (items : List Item) (h : ∀ i ∈ items, i.persistable = true) :
    ∀ (fuel : Nat) (rest : List Char),
      JSON.parseElems (fuel + items.length + 11)
          (JSON.renderElems (items.map Item.toJS) ++ rest) =
        some (items.map Item.toJS, rest) := by
  induction items with
  | nil =>
    intro fuel rest
    simp only [List.map_nil, JSON.renderElems, List.length_nil]
    unfold JSON.parseElems
    simp only [List.cons_append, List.nil_append]
    rw [skipWs_cons _ _ (by rfl)]
    rfl
  | cons i is ih =>
    intro fuel rest
    have hi := h i (by simp)
    have his : ∀ j ∈ is, j.persistable = true := fun j hj => h j (by simp [hj])
    simp only [List.map_cons, JSON.renderElems, List.length_cons, List.cons_append,
      List.append_assoc]
    have hfuel : fuel + (is.length + 1) + 11 = (fuel + is.length + 11) + 1 := by omega
    rw [hfuel]
    unfold JSON.parseElems
    rw [skipWs_cons _ _ (by rfl)]
    simp only
    rw [skipWs_item]
    have hf2 : fuel + is.length + 11 = (fuel + is.length) + 11 := by omega
    rw [hf2, parseValue_item _ i _ hi]
    simp only
    rw [← hf2, ih his fuel rest]
    rfl

theorem renderElems_length (vs : List JSVal) : vs.length + 1 ≤ (JSON.renderElems vs).length := by
  induction vs with
  | nil => simp [JSON.renderElems]
  | cons v vs ih =>
    simp only [JSON.renderElems, List.length_cons, List.length_append]
    omega

theorem render_item_head (i : Item) :
    ∃ tl, JSON.render i.toJS = '{' :: tl ∧ 10 ≤ tl.length := by
  unfold Item.toJS
  simp only [JSON.render, JSON.renderProps, quoteJSONString]
  refine ⟨_, rfl, ?_⟩
  simp only [List.length_cons, List.length_append, List.length_nil]
  omega

theorem parseValue_arr_cons (fuel : Nat) (tl : List Char) :
    JSON.parseValue (fuel + 1) ('[' :: '{' :: tl) =
      match JSON.parseValue fuel ('{' :: tl) with
      | none => none
      | some (v, r2) => (JSON.parseElems fuel r2).map (fun p => (.arr (v :: p.1), p.2)) := by
  conv_lhs => unfold JSON.parseValue
  simp only
  rw [skipWs_cons _ _ (by rfl)]
  rfl

theorem render_arr_cons (v : JSVal) (vs : List JSVal) :
    JSON.render (.arr (v :: vs)) = '[' :: (JSON.render v ++ JSON.renderElems vs) := by
  rw [JSON.render]

/-- `JSON.parse` reads a saved cart back as the array that was written. -/
theorem parse_stringify_items (items : List Item) (h : ∀ i ∈ items, i.persistable = true) :
    JSON.parse (JSON.stringify (itemsToJS items)) = .ok (itemsToJS items) := by
  unfold JSON.parse JSON.stringify itemsToJS
  cases items with
  | nil => rfl
  | cons i is =>
    have hi := h i (by simp)
    have his : ∀ j ∈ is, j.persistable = true := fun j hj => h j (by simp [hj])
    obtain ⟨tl, htl, hlen⟩ := render_item_head i
    have hel := renderElems_length (is.map Item.toJS)
    rw [List.length_map] at hel
    rw [List.map_cons, render_arr_cons]
    simp only
    obtain ⟨f, hf⟩ : ∃ f, ('[' :: (JSON.render i.toJS ++
        JSON.renderElems (List.map Item.toJS is))).length = f + is.length + 11 := by
      refine ⟨('[' :: (JSON.render i.toJS ++
        JSON.renderElems (List.map Item.toJS is))).length - (is.length + 11), ?_⟩
      simp only [htl, List.length_cons, List.length_append]
      omega
    rw [hf, skipWs_cons _ _ (by rfl)]
    have hpv : JSON.parseValue (f + is.length + 11 + 1)
        ('[' :: (JSON.render i.toJS ++ JSON.renderElems (List.map Item.toJS is))) =
        some (.arr (i.toJS :: is.map Item.toJS), []) := by
      have h1 : '[' :: (JSON.render i.toJS ++ JSON.renderElems (List.map Item.toJS is)) =
          '[' :: '{' :: (tl ++ JSON.renderElems (List.map Item.toJS is)) := by
        rw [htl]; rfl
      have h2 : '{' :: (tl ++ JSON.renderElems (List.map Item.toJS is)) =
          JSON.render i.toJS ++ JSON.renderElems (List.map Item.toJS is) := by
        rw [htl]; rfl
      rw [h1, parseValue_arr_cons, h2]
      have hf2 : f + is.length + 11 = (f + is.length) + 11 := by omega
      rw [hf2, parseValue_item _ i _ hi]
      simp only
      have := parseElems_items is his f []
      rw [List.append_nil] at this
      rw [← hf2, this]
      rfl
    rw [hpv]
    rfl
/-- Integer arithmetic on doubles agrees with the natural numbers: for counts below `2^53`
the sum of the doubles is the double of the sum, so `quantity += 1` and the running total of
`getTotalItems` are exact on such counts. -/
theorem ofNat_add (a b : Nat) (ha : a < 2 ^ 53) (hb : b < 2 ^ 53) :
    F64.add (F64.ofNat a) (F64.ofNat b) = F64.ofNat (a + b) := by
  rw [ofNat_small a ha, ofNat_small b hb]
  simp only [F64.add, if_true, F64.ofNat]
  rw [Nat.add_mul]

theorem ofNat_injective_small (a b : Nat) (ha : a < 2 ^ 53) (hb : b < 2 ^ 53)
    (h : F64.ofNat a = F64.ofNat b) : a = b := by
  rw [ofNat_small a ha, ofNat_small b hb] at h
  simp only [F64.fin.injEq, true_and] at h
  exact Nat.eq_of_mul_eq_mul_right (Nat.pos_pow_of_pos _ (by decide)) h
/-! ## Persistence -/

theorem find_put (key value : String) (data : List (String × String)) :
    (LocalStorage.put key value data).find? (fun kv => kv.1 = key) = some (key, value) := by
  induction data with
  | nil => simp [LocalStorage.put]
  | cons kv rest ih =>
    unfold LocalStorage.put
    split
    · simp
    · rename_i hne
      simp [List.find?_cons, hne, ih]

theorem getItem_setItem (st st2 : LocalStorage) (key value : String)
    (h : st.setItem key value = .ok st2) : st2.getItem key = some value := by
  unfold LocalStorage.setItem at h
  split at h
  · cases h
  · cases h
    simp [LocalStorage.getItem, find_put]

theorem stringify_items_ne_empty (items : List Item) :
    JSON.stringify (itemsToJS items) ≠ "" := by
  unfold JSON.stringify itemsToJS
  intro h
  have := congrArg String.data h
  cases items <;> simp [JSON.render] at this

theorem loadCart_saveCart (c : ShoppingCart) (hw : c.storage.refusesWrites = false) :
    c.saveCart.thrown = none ∧
    ShoppingCart.loadCart c.saveCart.cart.storage =
      JSON.parse (JSON.stringify (itemsToJS c.items)) := by
  refine ⟨saveCart_thrown_none c hw, ?_⟩
  have hset : c.storage.setItem cartKey (JSON.stringify (itemsToJS c.items)) =
      .ok ⟨LocalStorage.put cartKey (JSON.stringify (itemsToJS c.items)) c.storage.data,
        c.storage.refusesWrites⟩ := by
    simp [LocalStorage.setItem, hw]
  have hget := getItem_setItem _ _ _ _ hset
  unfold ShoppingCart.saveCart
  rw [hset]
  simp only
  unfold ShoppingCart.loadCart
  rw [hget]
  simp [stringify_items_ne_empty]

theorem bumpFirst_prices (id : Option String) (items : List Item) (P : F64 → Prop)
    (h : ∀ i ∈ items, P i.price) : ∀ i ∈ bumpFirst id items, P i.price := by
  induction items with
  | nil => simp [bumpFirst]
  | cons x xs ih =>
    unfold bumpFirst
    split
    · intro i hi
      rcases List.mem_cons.mp hi with rfl | hi
      · exact h x (by simp)
      · exact h i (by simp [hi])
    · intro i hi
      rcases List.mem_cons.mp hi with rfl | hi
      · exact h _ (by simp)
      · exact ih (fun j hj => h j (by simp [hj])) i hi

theorem call_prices_isDouble (c : ShoppingCart) (call : Call)
    (h : ∀ i ∈ c.items, i.price.IsDouble = true) :
    ∀ i ∈ (c.call call).cart.items, i.price.IsDouble = true := by
  cases call with
  | addItem p =>
    simp only [ShoppingCart.call, addItem_items]
    unfold addToItems
    split
    · exact bumpFirst_prices _ _ (fun x => x.IsDouble = true) h
    · intro i hi
      rcases List.mem_append.mp hi with hi | hi
      · exact h i hi
      · simp only [List.mem_singleton] at hi
        subst hi
        exact parseFloat_isDouble _
  | removeItem id =>
    simp only [ShoppingCart.call, removeItem_items]
    intro i hi
    exact h i (List.mem_of_mem_filter hi)
  | checkout => simp [ShoppingCart.call, checkout_items]

theorem run_prices_isDouble (calls : List Call) : ∀ (c : ShoppingCart),
    (∀ i ∈ c.items, i.price.IsDouble = true) →
      ∀ i ∈ (c.run calls).items, i.price.IsDouble = true := by
  induction calls with
  | nil => intro c h; exact h
  | cons call calls ih => intro c h; exact ih _ (call_prices_isDouble c call h)

theorem saveCart_refusesWrites (c : ShoppingCart) :
    c.saveCart.cart.storage.refusesWrites = c.storage.refusesWrites := by
  unfold ShoppingCart.saveCart LocalStorage.setItem
  split <;> rename_i h <;> split at h <;> simp_all
  cases h; rfl

theorem call_refusesWrites (c : ShoppingCart) (call : Call) :
    (c.call call).cart.storage.refusesWrites = c.storage.refusesWrites := by
  cases call with
  | addItem p => exact saveCart_refusesWrites _
  | removeItem id => exact saveCart_refusesWrites _
  | checkout =>
    simp only [ShoppingCart.call, ShoppingCart.checkout]
    split
    · exact saveCart_refusesWrites _
    · rfl

theorem run_refusesWrites (calls : List Call) : ∀ (c : ShoppingCart),
    (c.run calls).storage.refusesWrites = c.storage.refusesWrites := by
  induction calls with
  | nil => intro c; rfl
  | cons call calls ih => intro c; rw [ShoppingCart.run, ih, call_refusesWrites]

/-- C6, as the code has it. For every cart state reached from the empty cart by `addItem`,
`removeItem` and checkout calls, over a storage that accepts writes, in which every price is a
finite number other than negative zero and every quantity is below `2^53`: `saveCart` raises
nothing, and `loadCart` on the storage it leaves returns the array of the saved items, item by
item and field by field (`id`, `name`, `price`, `image`, `quantity`), in the same order. -/
theorem saved_cart_loads_back (storage : LocalStorage) (calls : List Call)
    (hw : storage.refusesWrites = false)
    (hfin : ∀ i ∈ ((ShoppingCart.empty storage).run calls).items,
      i.price.jsonExact = true ∧ i.quantity < 2 ^ 53) :
    ((ShoppingCart.empty storage).run calls).saveCart.thrown = none ∧
    ShoppingCart.loadCart ((ShoppingCart.empty storage).run calls).saveCart.cart.storage =
      .ok (itemsToJS ((ShoppingCart.empty storage).run calls).items) := by
  have hw2 : ((ShoppingCart.empty storage).run calls).storage.refusesWrites = false := by
    rw [run_refusesWrites]; exact hw
  have hdbl := run_prices_isDouble calls (ShoppingCart.empty storage) (by simp [ShoppingCart.empty])
  obtain ⟨h1, h2⟩ := loadCart_saveCart _ hw2
  refine ⟨h1, ?_⟩
  rw [h2]
  apply parse_stringify_items
  intro i hi
  have hq := (hfin i hi).2
  simp only [Item.persistable, hdbl i hi, (hfin i hi).1, Bool.and_self, Bool.true_and,
    decide_eq_true_eq]
  exact hq

/-- The scenario of the specification (`p1`, `p2`, `p1` again) is saved and loaded back. -/
theorem saved_cart_loads_back_witness :
    ShoppingCart.loadCart ((ShoppingCart.empty ⟨[], false⟩).run
        [.addItem ⟨some "p1", some "Protein", some "49.90", some "p1.png"⟩,
         .addItem ⟨some "p2", some "Creatine", some "10.00", some "p2.png"⟩,
         .addItem ⟨some "p1", some "Protein", some "49.90", some "p1.png"⟩]).saveCart.cart.storage =
      .ok (itemsToJS
        [⟨some "p1", some "Protein", parseFloat (some "49.90"), some "p1.png", 2⟩,
         ⟨some "p2", some "Creatine", parseFloat (some "10.00"), some "p2.png", 1⟩]) := by
  have h := saved_cart_loads_back ⟨[], false⟩
    [.addItem ⟨some "p1", some "Protein", some "49.90", some "p1.png"⟩,
     .addItem ⟨some "p2", some "Creatine", some "10.00", some "p2.png"⟩,
     .addItem ⟨some "p1", some "Protein", some "49.90", some "p1.png"⟩] rfl (by decide!)
  have hitems : ((ShoppingCart.empty ⟨[], false⟩).run
      [.addItem ⟨some "p1", some "Protein", some "49.90", some "p1.png"⟩,
       .addItem ⟨some "p2", some "Creatine", some "10.00", some "p2.png"⟩,
       .addItem ⟨some "p1", some "Protein", some "49.90", some "p1.png"⟩]).items =
      [⟨some "p1", some "Protein", parseFloat (some "49.90"), some "p1.png", 2⟩,
       ⟨some "p2", some "Creatine", parseFloat (some "10.00"), some "p2.png", 1⟩] := by
    decide!
  rw [hitems] at h
  exact h.2

/-- A product whose price text is not numeric is stored with the price `NaN`; `saveCart`
writes that price as `null`, and `loadCart` returns an item whose price is `null`, not the
saved item. -/
theorem nan_price_not_loaded_back :
    ShoppingCart.loadCart ((ShoppingCart.empty ⟨[], false⟩).run
        [.addItem ⟨some "p1", some "Protein", some "abc", some "p1.png"⟩]).saveCart.cart.storage =
      .ok (.arr [.obj [("id", .str "p1"), ("name", .str "Protein"), ("price", .null),
        ("image", .str "p1.png"), ("quantity", .num (F64.ofNat 1))]]) ∧
    ShoppingCart.loadCart ((ShoppingCart.empty ⟨[], false⟩).run
        [.addItem ⟨some "p1", some "Protein", some "abc", some "p1.png"⟩]).saveCart.cart.storage ≠
      .ok (itemsToJS ((ShoppingCart.empty ⟨[], false⟩).run
        [.addItem ⟨some "p1", some "Protein", some "abc", some "p1.png"⟩]).items) := by
  decide!
/-! ## Fuel of the JSON reader -/

theorem skipWs_length (cs : List Char) : (JSON.skipWs cs).length ≤ cs.length := by
  induction cs with
  | nil => simp [JSON.skipWs]
  | cons c cs ih =>
    unfold JSON.skipWs
    split
    · simp only [List.length_cons]; omega
    · simp

theorem spanDigits_length (cs : List Char) : (spanDigits cs).2.length ≤ cs.length := by
  induction cs with
  | nil => simp [spanDigits]
  | cons c cs ih =>
    unfold spanDigits
    split
    · simp only [List.length_cons]; omega
    · simp

theorem prepend_rest (xs : List Char) (r : Option (List Char × List Char))
    (p : List Char × List Char) (h : JSON.prepend xs r = some p) :
    ∃ q, r = some q ∧ p.2 = q.2 := by
  cases r with
  | none => simp [JSON.prepend] at h
  | some q =>
    simp only [JSON.prepend, Option.map_some', Option.some.injEq] at h
    exact ⟨q, rfl, by rw [← h]⟩

theorem parseStringBody_length_aux (n : Nat) : ∀ (cs : List Char) (pending : Option Nat)
    (p : List Char × List Char), cs.length ≤ n →
    JSON.parseStringBody pending cs = some p → p.2.length ≤ cs.length := by
  induction n with
  | zero =>
    intro cs pending p hn h
    have : cs = [] := List.length_eq_zero.mp (by omega)
    subst this
    simp [JSON.parseStringBody] at h
  | succ n ih =>
    intro cs pending p hn h
    unfold JSON.parseStringBody at h
    split at h
    · simp at h
    · simp only [Option.some.injEq] at h
      rw [← h]; simp
    · simp only [List.length_cons] at hn ⊢
      split at h
      · simp at h
      · split at h
        · split at h
          · obtain ⟨q, hq, hp⟩ := prepend_rest _ _ _ h
            have := ih _ _ _ (by omega) hq
            rw [hp]
            omega
          · obtain ⟨q, hq, hp⟩ := prepend_rest _ _ _ h
            have := ih _ _ _ (by omega) hq
            rw [hp]
            omega
        · split at h
          · obtain ⟨q, hq, hp⟩ := prepend_rest _ _ _ h
            have := ih _ _ _ (by omega) hq
            rw [hp]
            omega
          · obtain ⟨q, hq, hp⟩ := prepend_rest _ _ _ h
            have := ih _ _ _ (by omega) hq
            rw [hp]
            omega
    · simp only [List.length_cons] at hn ⊢
      split at h
      · simp at h
      · obtain ⟨q, hq, hp⟩ := prepend_rest _ _ _ h
        have := ih _ _ _ (by omega) hq
        rw [hp]
        omega
    · simp only [List.length_cons] at hn ⊢
      split at h
      · simp at h
      · obtain ⟨q, hq, hp⟩ := prepend_rest _ _ _ h
        have := ih _ _ _ (by omega) hq
        rw [hp]
        omega

theorem parseStringBody_length (cs : List Char) (pending : Option Nat)
    (p : List Char × List Char) (h : JSON.parseStringBody pending cs = some p) :
    p.2.length ≤ cs.length :=
  parseStringBody_length_aux cs.length cs pending p (le_refl _) h

theorem parseExponent_length (cs : List Char) (p : Int × List Char)
    (h : JSON.parseExponent cs = some p) : p.2.length ≤ cs.length := by
  unfold JSON.parseExponent at h
  split at h
  · split at h
    · split at h
      · split at h
        · simp at h
        · simp only [Option.some.injEq] at h
          rw [← h]
          have := spanDigits_length ‹List Char›
          simp only [List.length_cons]
          omega
      · split at h
        · simp at h
        · simp only [Option.some.injEq] at h
          rw [← h]
          have := spanDigits_length ‹List Char›
          simp only [List.length_cons]
          omega
      · split at h
        · simp at h
        · simp only [Option.some.injEq] at h
          rw [← h]
          rename_i cs1 _ _ _ _ _
          have := spanDigits_length cs1
          simp only [List.length_cons]
          omega
    · simp only [Option.some.injEq] at h
      rw [← h]
  · simp only [Option.some.injEq] at h
    rw [← h]

theorem parseFraction_length (neg : Bool) (ip cs : List Char) (p : F64 × List Char)
    (h : JSON.parseFraction neg ip cs = some p) : p.2.length ≤ cs.length := by
  unfold JSON.parseFraction at h
  split at h
  · rename_i r
    split at h
    · simp at h
    · cases hex : JSON.parseExponent (spanDigits r).2 with
      | none => simp [hex] at h
      | some ex =>
        simp only [hex, Option.map_some', Option.some.injEq] at h
        have h1 := parseExponent_length _ _ hex
        have h2 := spanDigits_length r
        rw [← h]
        simp only [List.length_cons]
        omega
  · cases hex : JSON.parseExponent cs with
    | none => simp [hex] at h
    | some ex =>
      simp only [hex, Option.map_some', Option.some.injEq] at h
      have h1 := parseExponent_length _ _ hex
      rw [← h]
      exact h1

theorem parseNumber_length (cs : List Char) (p : F64 × List Char)
    (h : JSON.parseNumber cs = some p) : p.2.length ≤ cs.length := by
  have hu : ∀ neg cs, JSON.parseUnsigned neg cs = some p → p.2.length ≤ cs.length := by
    intro neg cs h
    unfold JSON.parseUnsigned at h
    split at h
    · simp at h
    · split at h
      · simp at h
      · have h1 := parseFraction_length _ _ _ _ h
        have h2 := spanDigits_length cs
        omega
  unfold JSON.parseNumber at h
  split at h
  · have := hu _ _ h
    simp only [List.length_cons]
    omega
  · exact hu _ _ h
theorem parse_length (fuel : Nat) :
    (∀ cs p, JSON.parseValue fuel cs = some p → p.2.length ≤ cs.length) ∧
    (∀ cs p, JSON.parseElems fuel cs = some p → p.2.length ≤ cs.length) ∧
    (∀ cs p, JSON.parseMember fuel cs = some p → p.2.length ≤ cs.length) ∧
    (∀ cs p, JSON.parseMembers fuel cs = some p → p.2.length ≤ cs.length) := by
  induction fuel with
  | zero =>
    refine ⟨?_, ?_, ?_, ?_⟩ <;> intro cs p h
    · simp [JSON.parseValue] at h
    · simp [JSON.parseElems] at h
    · simp [JSON.parseMember] at h
    · simp [JSON.parseMembers] at h
  | succ fuel ih =>
    obtain ⟨ihV, ihE, ihM, ihMs⟩ := ih
    refine ⟨?_, ?_, ?_, ?_⟩ <;> intro cs p h
    · unfold JSON.parseValue at h
      split at h
      · simp only [Option.some.injEq] at h; rw [← h]; simp only [List.length_cons]; omega
      · simp only [Option.some.injEq] at h; rw [← h]; simp only [List.length_cons]; omega
      · simp only [Option.some.injEq] at h; rw [← h]; simp only [List.length_cons]; omega
      · rename_i r
        obtain ⟨q, hq, hp⟩ := Option.map_eq_some'.mp h
        have := parseStringBody_length _ _ _ hq
        rw [← hp]; simp only [List.length_cons]; omega
      · rename_i r
        have hws := skipWs_length r
        split at h
        · rename_i r1 heq
          simp only [Option.some.injEq] at h
          rw [← h]
          rw [heq] at hws
          simp only [List.length_cons] at hws ⊢
          omega
        · split at h
          · simp at h
          · rename_i v r2 hv
            obtain ⟨q, hq, hp⟩ := Option.map_eq_some'.mp h
            have h1 := ihV _ _ hv
            have h2 := ihE _ _ hq
            rw [← hp]; simp only [List.length_cons] at h1 ⊢; omega
      · rename_i r
        have hws := skipWs_length r
        split at h
        · rename_i r1 heq
          simp only [Option.some.injEq] at h
          rw [← h]
          rw [heq] at hws
          simp only [List.length_cons] at hws ⊢
          omega
        · obtain ⟨q, hq, hp⟩ := Option.map_eq_some'.mp h
          have h2 := ihM _ _ hq
          rw [← hp]; simp only [List.length_cons]; omega
      · obtain ⟨q, hq, hp⟩ := Option.map_eq_some'.mp h
        have := parseNumber_length _ _ hq
        rw [← hp]; exact this
    · unfold JSON.parseElems at h
      have hws := skipWs_length cs
      split at h
      · rename_i r heq
        simp only [Option.some.injEq] at h
        rw [← h]; rw [heq] at hws
        simp only [List.length_cons] at hws ⊢; omega
      · rename_i r heq
        rw [heq] at hws
        have hws2 := skipWs_length r
        split at h
        · simp at h
        · rename_i v r1 hv
          obtain ⟨q, hq, hp⟩ := Option.map_eq_some'.mp h
          have h1 := ihV _ _ hv
          have h2 := ihE _ _ hq
          rw [← hp]; simp only [List.length_cons] at hws h1 ⊢; omega
      · simp at h
    · unfold JSON.parseMember at h
      split at h
      · rename_i r
        split at h
        · simp at h
        · rename_i k r1 hk
          have h0 := parseStringBody_length _ _ _ hk
          have hws := skipWs_length r1
          split at h
          · rename_i r2 heq
            rw [heq] at hws
            have hws2 := skipWs_length r2
            split at h
            · simp at h
            · rename_i v r3 hv
              obtain ⟨q, hq, hp⟩ := Option.map_eq_some'.mp h
              have h1 := ihV _ _ hv
              have h2 := ihMs _ _ hq
              rw [← hp]; simp only [List.length_cons] at hws h0 h1 ⊢; omega
          · simp at h
      · simp at h
    · unfold JSON.parseMembers at h
      have hws := skipWs_length cs
      split at h
      · rename_i r heq
        simp only [Option.some.injEq] at h
        rw [← h]; rw [heq] at hws
        simp only [List.length_cons] at hws ⊢; omega
      · rename_i r heq
        rw [heq] at hws
        have hws2 := skipWs_length r
        have h1 := ihM _ _ h
        simp only [List.length_cons] at hws; omega
      · simp at h

/-- Fuel above the input length never runs out: a result obtained with some fuel is obtained
with every fuel above the length of the input. -/
theorem parse_fuel (fuel : Nat) :
    (∀ cs p, JSON.parseValue fuel cs = some p →
      ∀ f, cs.length + 1 ≤ f → JSON.parseValue f cs = some p) ∧
    (∀ cs p, JSON.parseElems fuel cs = some p →
      ∀ f, cs.length + 1 ≤ f → JSON.parseElems f cs = some p) ∧
    (∀ cs p, JSON.parseMember fuel cs = some p →
      ∀ f, cs.length + 1 ≤ f → JSON.parseMember f cs = some p) ∧
    (∀ cs p, JSON.parseMembers fuel cs = some p →
      ∀ f, cs.length + 1 ≤ f → JSON.parseMembers f cs = some p) := by
  induction fuel with
  | zero =>
    refine ⟨?_, ?_, ?_, ?_⟩ <;> intro cs p h
    · simp [JSON.parseValue] at h
    · simp [JSON.parseElems] at h
    · simp [JSON.parseMember] at h
    · simp [JSON.parseMembers] at h
  | succ fuel ih =>
    obtain ⟨ihV, ihE, ihM, ihMs⟩ := ih
    obtain ⟨lenV, lenE, lenM, lenMs⟩ := parse_length fuel
    refine ⟨?_, ?_, ?_, ?_⟩ <;> intro cs p h f hf
    · obtain ⟨g, rfl⟩ : ∃ g, f = g + 1 := ⟨f - 1, by omega⟩
      unfold JSON.parseValue at h ⊢
      split at h
      · exact h
      · exact h
      · exact h
      · exact h
      · rename_i r
        have hws := skipWs_length r
        simp only [List.length_cons] at hf
        split at h
        · rename_i r1 heq
          exact h
        · rename_i r1 hne
          split at h
          · simp at h
          · rename_i v r2 hv
            have h1 := lenV _ _ hv
            have hv' := ihV _ _ hv g (by omega)
            obtain ⟨q, hq, hp⟩ := Option.map_eq_some'.mp h
            have hq' := ihE _ _ hq g (by simp only at h1; omega)
            simp only [hv', hq', Option.map_some', hp]
      · rename_i r
        have hws := skipWs_length r
        simp only [List.length_cons] at hf
        split at h
        · rename_i r1 heq
          exact h
        · rename_i r1 hne
          obtain ⟨q, hq, hp⟩ := Option.map_eq_some'.mp h
          have hq' := ihM _ _ hq g (by omega)
          simp only [hq', Option.map_some', hp]
      · exact h
    · obtain ⟨g, rfl⟩ : ∃ g, f = g + 1 := ⟨f - 1, by omega⟩
      unfold JSON.parseElems at h ⊢
      have hws := skipWs_length cs
      split at h
      · rename_i r heq
        exact h
      · rename_i r heq
        rw [heq] at hws
        have hws2 := skipWs_length r
        simp only [List.length_cons] at hws
        split at h
        · simp at h
        · rename_i v r1 hv
          have h1 := lenV _ _ hv
          have hv' := ihV _ _ hv g (by omega)
          obtain ⟨q, hq, hp⟩ := Option.map_eq_some'.mp h
          have hq' := ihE _ _ hq g (by simp only at h1; omega)
          simp only [hv', hq', Option.map_some', hp]
      · simp at h
    · obtain ⟨g, rfl⟩ : ∃ g, f = g + 1 := ⟨f - 1, by omega⟩
      unfold JSON.parseMember at h ⊢
      split at h
      · rename_i r
        simp only [List.length_cons] at hf
        split at h
        · simp at h
        · rename_i k r1 hk
          have h0 := parseStringBody_length _ _ _ hk
          have hws := skipWs_length r1
          split at h
          · rename_i r2 heq
            rw [heq] at hws
            have hws2 := skipWs_length r2
            simp only [List.length_cons] at hws
            split at h
            · simp at h
            · rename_i v r3 hv
              have h1 := lenV _ _ hv
              have hv' := ihV _ _ hv g (by simp only at h0; omega)
              obtain ⟨q, hq, hp⟩ := Option.map_eq_some'.mp h
              have hq' := ihMs _ _ hq g (by simp only at h0 h1; omega)
              simp only [hv', hq', Option.map_some', hp]
          · simp at h
      · simp at h
    · obtain ⟨g, rfl⟩ : ∃ g, f = g + 1 := ⟨f - 1, by omega⟩
      unfold JSON.parseMembers at h ⊢
      have hws := skipWs_length cs
      split at h
      · rename_i r heq
        exact h
      · rename_i r heq
        rw [heq] at hws
        have hws2 := skipWs_length r
        simp only [List.length_cons] at hws
        exact ihM _ _ h g (by omega)
      · simp at h

/-- `JSON.parse` accepts a text as soon as some amount of fuel reads it as one JSON value
between white space: its own fuel is enough. -/
theorem parse_of_some_fuel (text : String) (fuel : Nat) (v : JSVal) (rest : List Char)
    (h : JSON.parseValue fuel (JSON.skipWs text.data) = some (v, rest))
    (hr : JSON.skipWs rest = []) : JSON.parse text = .ok v := by
  have hlen := skipWs_length text.data
  have := (parse_fuel fuel).1 _ _ h (text.data.length + 1) (by omega)
  unfold JSON.parse
  rw [this]
  simp [hr]

theorem parse_error_iff (text : String) :
    JSON.parse text = .error .syntaxError ↔
      ∀ fuel v rest, JSON.parseValue fuel (JSON.skipWs text.data) = some (v, rest) →
        JSON.skipWs rest ≠ [] := by
  constructor
  · intro herr fuel v rest h hr
    rw [parse_of_some_fuel text fuel v rest h hr] at herr
    cases herr
  · intro hall
    unfold JSON.parse
    split
    · rename_i v rest hv
      have := hall _ v rest hv
      simp [this]
    · rfl
/-- C7, as the code has it. `loadCart` returns the empty array, and raises nothing, when the
slot is absent or holds the empty string. For any other payload it returns what `JSON.parse`
returns for it, whatever its shape, and it raises the `SyntaxError` of `JSON.parse` exactly
when the payload is not one JSON value between white space (no amount of fuel reads it as
one). -/
theorem loadCart_by_payload (storage : LocalStorage) :
    (storage.getItem cartKey = none → ShoppingCart.loadCart storage = .ok (.arr [])) ∧
    (storage.getItem cartKey = some "" → ShoppingCart.loadCart storage = .ok (.arr [])) ∧
    (∀ payload, storage.getItem cartKey = some payload → payload ≠ "" →
      ShoppingCart.loadCart storage = JSON.parse payload ∧
      (ShoppingCart.loadCart storage = .error .syntaxError ↔
        ∀ fuel v rest, JSON.parseValue fuel (JSON.skipWs payload.data) = some (v, rest) →
          JSON.skipWs rest ≠ [])) := by
  refine ⟨?_, ?_, ?_⟩
  · intro h; simp [ShoppingCart.loadCart, h]
  · intro h; simp [ShoppingCart.loadCart, h]
  · intro payload h hne
    have hload : ShoppingCart.loadCart storage = JSON.parse payload := by
      simp [ShoppingCart.loadCart, h, hne]
    refine ⟨hload, ?_⟩
    rw [hload]
    exact parse_error_iff payload

/-- An absent slot and an empty payload load as the empty array; the truncated payload
`[{"id":"p1","name":"Pro` makes `loadCart` raise `SyntaxError`. -/
theorem loadCart_by_payload_witness :
    ShoppingCart.loadCart ⟨[], false⟩ = .ok (.arr []) ∧
    ShoppingCart.loadCart ⟨[("nutrijoseph_cart", "")], false⟩ = .ok (.arr []) ∧
    ShoppingCart.loadCart ⟨[("nutrijoseph_cart", "[\x7b\"id\":\"p1\",\"name\":\"Pro")], false⟩ =
      .error .syntaxError := by
  refine ⟨(loadCart_by_payload ⟨[], false⟩).1 rfl,
    (loadCart_by_payload ⟨[("nutrijoseph_cart", "")], false⟩).2.1 (by decide), ?_⟩
  rw [((loadCart_by_payload ⟨[("nutrijoseph_cart", "[\x7b\"id\":\"p1\",\"name\":\"Pro")], false⟩).2.2
    "[\x7b\"id\":\"p1\",\"name\":\"Pro" (by decide) (by decide)).1]
  decide!

/-- Payloads that are not JSON text make `loadCart`, and with it the constructor, raise a
`SyntaxError`: the unfinished `[{`, a cart cut off in the middle, and a cart with a trailing
comma. -/
theorem loadCart_throws_on_malformed :
    ShoppingCart.loadCart ⟨[("nutrijoseph_cart", "[\x7b")], false⟩ = .error .syntaxError ∧
    ShoppingCart.loadCart
      ⟨[("nutrijoseph_cart", "[\x7b\"id\":\"p1\",\"name\":\"Protein\",\"price\":49.9,\"ima")],
        false⟩ = .error .syntaxError ∧
    ShoppingCart.loadCart
      ⟨[("nutrijoseph_cart", "[\x7b\"id\":\"p1\",\"quantity\":1\x7d,]")], false⟩ =
        .error .syntaxError := by
  decide!
theorem getTotalPrice_of_items (c : ShoppingCart) (l : List Item) (h : c.items = l) :
    c.getTotalPrice = (ShoppingCart.mk l ⟨[], false⟩).getTotalPrice := by
  simp [ShoppingCart.getTotalPrice, h]

/-- C3, as the code has it. `getTotalPrice()` is the double-precision sum, from left to right
and starting at `0`, of `price * quantity`: the total of a list with one more item is the
total of the list plus the product of the item, both operations rounding to the nearest
double. It depends on the item list alone, so it is the same whenever it is computed on an
unchanged cart. After 1000 `addItem` calls of one product priced `0.10` on an empty cart it is
exactly `100.00`, and after `p1` (49.90), `p2` (10.00), `p1` again it is exactly `109.80`. -/
theorem getTotalPrice_double_sum :
    (∀ storage : LocalStorage, (ShoppingCart.empty storage).getTotalPrice = F64.zero) ∧
    (∀ (items : List Item) (i : Item) (storage : LocalStorage),
      (ShoppingCart.mk (items ++ [i]) storage).getTotalPrice =
        F64.add (ShoppingCart.mk items storage).getTotalPrice
          (F64.mul i.price (F64.ofNat i.quantity))) ∧
    (∀ (items : List Item) (s1 s2 : LocalStorage),
      (ShoppingCart.mk items s1).getTotalPrice = (ShoppingCart.mk items s2).getTotalPrice) ∧
    (∀ storage : LocalStorage,
      ((ShoppingCart.empty storage).run (List.replicate 1000
        (Call.addItem ⟨some "p1", some "Protein", some "0.10", some "p1.png"⟩))).getTotalPrice =
        parseFloat (some "100.00")) ∧
    (∀ storage : LocalStorage,
      ((ShoppingCart.empty storage).run
        [.addItem ⟨some "p1", some "Protein", some "49.90", some "p1.png"⟩,
         .addItem ⟨some "p2", some "Creatine", some "10.00", some "p2.png"⟩,
         .addItem ⟨some "p1", some "Protein", some "49.90", some "p1.png"⟩]).getTotalPrice =
        parseFloat (some "109.80")) := by
  refine ⟨fun _ => rfl, ?_, fun _ _ _ => rfl, ?_, ?_⟩
  · intro items i storage
    simp [ShoppingCart.getTotalPrice, List.foldl_append]
  · intro storage
    have hcalls : List.replicate 1000
        (Call.addItem ⟨some "p1", some "Protein", some "0.10", some "p1.png"⟩) =
        ((⟨some "p1", some "Protein", some "0.10", some "p1.png"⟩ : Product) ::
          List.replicate 999 ⟨some "p1", some "Protein", some "0.10", some "p1.png"⟩).map
          Call.addItem := by
      rw [← List.replicate_succ, List.map_replicate]
    have hitems := run_same_id_from_empty storage
      ⟨some "p1", some "Protein", some "0.10", some "p1.png"⟩
      (List.replicate 999 ⟨some "p1", some "Protein", some "0.10", some "p1.png"⟩)
      (fun q hq => by rw [List.eq_of_mem_replicate hq])
    rw [← hcalls, List.length_replicate] at hitems
    rw [getTotalPrice_of_items _ _ hitems]
    decide!
  · intro storage
    have hitems : ((ShoppingCart.empty storage).run
        [.addItem ⟨some "p1", some "Protein", some "49.90", some "p1.png"⟩,
         .addItem ⟨some "p2", some "Creatine", some "10.00", some "p2.png"⟩,
         .addItem ⟨some "p1", some "Protein", some "49.90", some "p1.png"⟩]).items =
        [⟨some "p1", some "Protein", parseFloat (some "49.90"), some "p1.png", 2⟩,
         ⟨some "p2", some "Creatine", parseFloat (some "10.00"), some "p2.png", 1⟩] := by
      simp [ShoppingCart.run, ShoppingCart.call, ShoppingCart.empty, addItem_items, addToItems,
        bumpFirst]
    rw [getTotalPrice_of_items _ _ hitems]
    decide!

/-- Three `addItem` calls of a product priced `0.10` on the empty cart: `getTotalPrice()`
returns the double `0.30000000000000004`, which is neither the exact sum of `price * quantity`
over the items nor the double `0.30`. -/
theorem getTotalPrice_not_exact :
    (((ShoppingCart.empty ⟨[], false⟩).run
        [.addItem ⟨some "p1", some "Protein", some "0.10", some "p1.png"⟩,
         .addItem ⟨some "p1", some "Protein", some "0.10", some "p1.png"⟩,
         .addItem ⟨some "p1", some "Protein", some "0.10", some "p1.png"⟩]).getTotalPrice).units ≠
      exactTotalUnits ((ShoppingCart.empty ⟨[], false⟩).run
        [.addItem ⟨some "p1", some "Protein", some "0.10", some "p1.png"⟩,
         .addItem ⟨some "p1", some "Protein", some "0.10", some "p1.png"⟩,
         .addItem ⟨some "p1", some "Protein", some "0.10", some "p1.png"⟩]).items ∧
    ((ShoppingCart.empty ⟨[], false⟩).run
        [.addItem ⟨some "p1", some "Protein", some "0.10", some "p1.png"⟩,
         .addItem ⟨some "p1", some "Protein", some "0.10", some "p1.png"⟩,
         .addItem ⟨some "p1", some "Protein", some "0.10", some "p1.png"⟩]).getTotalPrice =
      parseFloat (some "0.30000000000000004") ∧
    ((ShoppingCart.empty ⟨[], false⟩).run
        [.addItem ⟨some "p1", some "Protein", some "0.10", some "p1.png"⟩,
         .addItem ⟨some "p1", some "Protein", some "0.10", some "p1.png"⟩,
         .addItem ⟨some "p1", some "Protein", some "0.10", some "p1.png"⟩]).getTotalPrice ≠
      parseFloat (some "0.30") := by
  decide!

theorem filter_id_length_le_one (items : List Item) (h : (items.map (fun i => i.id)).Nodup)
    (id : Option String) : (items.filter (fun i => i.id = id)).length ≤ 1 := by
  induction items with
  | nil => simp
  | cons x xs ih =>
    rw [List.map_cons, List.nodup_cons] at h
    by_cases hx : x.id = id
    · have hnone : xs.filter (fun i => i.id = id) = [] := by
        rw [List.filter_eq_nil_iff]
        intro y hy hyid
        apply h.1
        rw [hx]
        exact List.mem_map.mpr ⟨y, hy, by simpa using hyid⟩
      simp [List.filter_cons, hx, hnone]
    · simpa [List.filter_cons, hx] using ih h.2

/-- C1. Starting from the empty cart, over any storage, after every finite sequence of
`addItem`, `removeItem` (and checkout) calls, with any products and any ids, the cart holds at
most one item for each id: the ids of its items are pairwise distinct. -/
theorem cart_holds_one_item_per_id (storage : LocalStorage) (calls : List Call) :
    (∀ id : Option String,
      (((ShoppingCart.empty storage).run calls).items.filter (fun i => i.id = id)).length ≤ 1) ∧
    ((((ShoppingCart.empty storage).run calls).items).map (fun i => i.id)).Nodup :=
  ⟨filter_id_length_le_one _ (cart_ids_unique storage calls), cart_ids_unique storage calls⟩
